import Mathlib

/-!
Verification development for the model-cache / inference-dispatch core of the
repository (`app/services/model_manager.py` and `app/api/v1/models.py`).

The Python code is shallowly embedded:
* Python `dict` / `OrderedDict` objects become association lists
  (`List (String × β)`) in insertion order; `dict` assignment that updates an
  existing key keeps the key's position, deletion removes the entry,
  `OrderedDict.move_to_end` moves an entry to the end.
* `time.time()` and `psutil` memory probes become explicit parameters
  (a logical clock `now : Nat`, an `availGB : Rat` probe).
* The unbounded `while` eviction loop becomes a fuel-indexed function
  returning `none` when the fuel is exhausted before the loop exits.
* Backend loads become an explicit `Except`-valued parameter (the outcome of
  `_load_model_backend_specific`), since the backend library is external.
-/

namespace MacLLM

/-- Keys of an association list, in order. -/
def keys {β : Type} (l : List (String × β)) : List String :=
  l.map Prod.fst

/-- Python `d[k]` read access: the value of the first (for a dict: only)
entry with key `k`. -/
def getKey {β : Type} : List (String × β) → String → Option β
  | [], _ => none
  | p :: rest, k => if p.1 = k then some p.2 else getKey rest k

/-- Python `d[k] = v`: update in place when `k` is present (a dict keeps the
key's insertion position), append otherwise. -/
def setKey {β : Type} : List (String × β) → String → β → List (String × β)
  | [], k, v => [(k, v)]
  | p :: rest, k, v => if p.1 = k then (k, v) :: rest else p :: setKey rest k v

/-- Python `del d[k]` on a dict whose keys are unique: remove the first entry
with key `k` (no-op if absent; the callers below guard or thread `Option`
where CPython would raise `KeyError`). -/
def delKey {β : Type} : List (String × β) → String → List (String × β)
  | [], _ => []
  | p :: rest, k => if p.1 = k then rest else p :: delKey rest k

/-- `OrderedDict.move_to_end(k)`: move the entry for `k` (if present) to the
end, keeping its value. -/
def moveToEnd {β : Type} (l : List (String × β)) (k : String) :
    List (String × β) :=
  match getKey l k with
  | none => l
  | some v => delKey l k ++ [(k, v)]

/-- Python `min(items, key=lambda x: x[1])` over a nonempty list: the first
entry whose value is minimal (Python's `min` replaces the current best only
on a strictly smaller value). -/
def pyMinBySnd (p : String × Nat) : List (String × Nat) → String × Nat
  | [] => p
  | q :: rest => pyMinBySnd (if q.2 < p.2 then q else p) rest

/-! ## ModelManager state (`app/services/model_manager.py`, class `ModelManager`)

`_models_cache : OrderedDict[str, Any]`, `_last_access : Dict[str, float]`,
`_load_times : Dict[str, float]`.  Backend handles are abstracted as `Nat`;
timestamps and load durations as `Nat` (a monotone logical clock). -/

structure MMState where
  models_cache : List (String × Nat)
  last_access : List (String × Nat)
  load_times : List (String × Nat)
deriving DecidableEq

/-- The configuration and environment a single `ModelManager` call sees:
`settings.max_model_cache_size` and the `psutil` available-memory probe in GB
(held fixed across the probes of one call). -/
structure Config where
  max_model_cache_size : Nat
  availGB : Rat
deriving DecidableEq

/-- `ModelManager._should_evict_model` (model_manager.py:112-118): evict when
`len(self._models_cache) >= self.settings.max_model_cache_size` or the memory
probe reports fewer than 2.0 GB available. -/
def should_evict_model (cfg : Config) (st : MMState) : Bool :=
  decide (cfg.max_model_cache_size ≤ st.models_cache.length) ||
    decide (cfg.availGB < 2)

/-- `ModelManager._evict_least_recently_used` (model_manager.py:120-137):
return unchanged when `_models_cache` is empty; otherwise select the entry of
`_last_access` with minimal timestamp (first wins on ties, as Python's `min`)
and, if it is a cached key, delete it from all three dicts.  `none` models an
exception CPython would raise: `min` over an empty `_last_access`
(`ValueError`) or `del self._load_times[lru]` on a missing key (`KeyError`);
both are impossible in well-formed states. -/
def evict_least_recently_used (st : MMState) : Option MMState :=
  if st.models_cache = [] then some st
  else
    match st.last_access with
    | [] => none
    | p :: rest =>
      let lru := (pyMinBySnd p rest).1
      if lru ∈ keys st.models_cache then
        if lru ∈ keys st.load_times then
          some ⟨delKey st.models_cache lru, delKey st.last_access lru,
                delKey st.load_times lru⟩
        else none
      else some st

/-- The `while self._should_evict_model(): self._evict_least_recently_used()`
loop of `get_model` (model_manager.py:177-178), with explicit fuel: `none`
means the loop has not exited within `fuel` iterations (or an eviction
raised). -/
def evictLoop (cfg : Config) : Nat → MMState → Option MMState
  | 0, _ => none
  | fuel + 1, st =>
    if should_evict_model cfg st then
      match evict_least_recently_used st with
      | none => none
      | some st' => evictLoop cfg fuel st'
    else some st

/-- `ModelManager.get_model` (model_manager.py:139-196), one sequential call.
`loadResult` stands for the outcome of `await self._load_model_backend_specific`
(the backend library is external; `.error` is a raised exception), `now` for
`time.time()`, `loadDur` for the measured load duration, `fuel` bounds the
eviction loop.  On a cache hit the access time is refreshed and the entry
moved to the end; on a miss the load outcome is propagated: an error leaves
the state untouched, a handle is inserted after recording the load time and
running the eviction loop.  `none` means the eviction loop did not exit. -/
def get_model (cfg : Config) (st : MMState) (model_name : String) (now : Nat)
    (loadResult : Except String Nat) (loadDur : Nat) (fuel : Nat) :
    Option (Except String Nat × MMState) :=
  match getKey st.models_cache model_name with
  | some h =>
    some (.ok h,
      { st with
        last_access := setKey st.last_access model_name now
        models_cache := moveToEnd st.models_cache model_name })
  | none =>
    match loadResult with
    | .error e => some (.error e, st)
    | .ok h =>
      let st1 : MMState :=
        { st with load_times := setKey st.load_times model_name loadDur }
      match evictLoop cfg fuel st1 with
      | none => none
      | some st2 =>
        some (.ok h,
          { st2 with
            models_cache := setKey st2.models_cache model_name h
            last_access := setKey st2.last_access model_name now })

/-- A backend-library call made by a `ModelManager` method against a held
handle (e.g. freeing a loaded model's device memory). -/
inductive BackendCall
  | teardown (key : String)
deriving DecidableEq

/-- `ModelManager.clear_cache` (model_manager.py:371-377): `.clear()` on the
three dicts plus a log line.  The body contains no call into the backend
library (handles are dropped without backend-specific teardown), so the
emitted backend-call trace is literally empty. -/
def clear_cache (_st : MMState) : MMState × List BackendCall :=
  ((⟨[], [], []⟩ : MMState), ([] : List BackendCall))

/-- `ModelManager.get_cache_info` (model_manager.py:360-369), without the
pass-through memory probe. -/
structure CacheInfo where
  cached_models : List String
  cache_size : Nat
  max_cache_size : Nat
  load_times : List (String × Nat)
deriving DecidableEq

def get_cache_info (cfg : Config) (st : MMState) : CacheInfo :=
  ⟨keys st.models_cache, st.models_cache.length, cfg.max_model_cache_size,
    st.load_times⟩

/-- `remove_model_from_cache` (app/api/v1/models.py:221-253): the DELETE
`/cache/{model_name}` handler.  Returns the HTTP status and the state.  The
outer check reads `get_cache_info`; the inner check re-tests membership under
the lock exactly as the source does.  `none` models an uncaught `KeyError`
from `del model_manager._last_access[model_name]` (caught as a 500 by the
handler's catch-all) — impossible in well-formed states. -/
def remove_model_from_cache (cfg : Config) (st : MMState) (model_name : String) :
    Option (Nat × MMState) :=
  if model_name ∈ (get_cache_info cfg st).cached_models then
    if model_name ∈ keys st.models_cache then
      match getKey st.last_access model_name with
      | none => none
      | some _ =>
        some (200,
          { models_cache := delKey st.models_cache model_name
            last_access := delKey st.last_access model_name
            load_times :=
              if model_name ∈ keys st.load_times then
                delKey st.load_times model_name
              else st.load_times })
    else some (200, st)
  else some (404, st)

/-- Well-formedness the manager maintains: unique keys in each dict,
`_models_cache` and `_last_access` hold exactly the same keys, and every
cached key has a recorded load time. -/
structure WF (st : MMState) : Prop where
  nodupC : (keys st.models_cache).Nodup
  nodupA : (keys st.last_access).Nodup
  nodupT : (keys st.load_times).Nodup
  cache_sub_access : ∀ k ∈ keys st.models_cache, k ∈ keys st.last_access
  access_sub_cache : ∀ k ∈ keys st.last_access, k ∈ keys st.models_cache
  cache_sub_times : ∀ k ∈ keys st.models_cache, k ∈ keys st.load_times

/-- The LRU selection of `_evict_least_recently_used` (model_manager.py:126):
`min(self._last_access.items(), key=lambda x: x[1])[0]`, or `none` when
`_last_access` is empty. -/
def lruKey (st : MMState) : Option String :=
  match st.last_access with
  | [] => none
  | p :: rest => some (pyMinBySnd p rest).1

/-- One `get_model` request: the key, the `time.time()` value observed, the
backend load outcome (used only on a miss) and the measured load duration. -/
structure Req where
  key : String
  now : Nat
  loadResult : Except String Nat
  loadDur : Nat

/-- One `get_model` call inside a request sequence, with fuel
`len(cache) + 1` for the eviction loop (enough whenever memory is
sufficient).  The `none` fallback (a diverged call) never fires under the
hypotheses of the theorems below. -/
def runStep (cfg : Config) (st : MMState) (r : Req) : MMState :=
  match get_model cfg st r.key r.now r.loadResult r.loadDur
      (st.models_cache.length + 1) with
  | some (_, st') => st'
  | none => st

/-- A sequence of `get_model` calls against an initially empty manager. -/
def runSeq (cfg : Config) (reqs : List Req) : MMState :=
  reqs.foldl (runStep cfg) ⟨[], [], []⟩

/-! ## Response post-processing (`ModelManager._clean_response`,
model_manager.py:198-232)

Python strings become `List Char`; `str.find`, `str.strip` and `str.rfind`
are modelled below with CPython's semantics on ASCII text. -/

/-- Python `sub in s` position search `s.find(sub)`: index of the first
occurrence, `none` where Python returns `-1`. -/
def pyFind (q : List Char) : List Char → Option Nat
  | [] => if q = [] then some 0 else none
  | c :: rest =>
    if q.isPrefixOf (c :: rest) then some 0
    else (pyFind q rest).map (· + 1)

/-- The whitespace characters Python's `str.strip()` removes (ASCII range). -/
def pyIsSpace (c : Char) : Bool :=
  c == ' ' || c == '\t' || c == '\n' || c == '\r' ||
    c == '\x0b' || c == '\x0c'

/-- Python `str.strip()`: remove leading and trailing whitespace. -/
def pyStrip (s : List Char) : List Char :=
  ((s.dropWhile pyIsSpace).reverse.dropWhile pyIsSpace).reverse

/-- Python `str.rfind(ch)` for a single character: the highest index holding
`ch`, or `-1` when absent. -/
def pyRfind (ch : Char) : List Char → Int
  | [] => -1
  | c :: rest =>
    if pyRfind ch rest ≠ -1 then pyRfind ch rest + 1
    else if c = ch then 0 else -1

/-- The stop sequences of `_clean_response` (model_manager.py:201-205), in
source order. -/
def stop_sequences : List (List Char) :=
  ["<|user|>".data, "<|system|>".data, "<|assistant|>".data,
   "\nUser:".data, "\nAssistant:".data, "\nSystem:".data,
   "User:".data, "Assistant:".data, "System:".data]

/-- One update of the `min_pos` fold of `_clean_response`
(model_manager.py:209-212): `pos = response.find(stop_seq); if pos != -1 and
pos < min_pos: min_pos = pos`. -/
def stopFold (s : List Char) (m : Nat) (q : List Char) : Nat :=
  match pyFind q s with
  | some p => if p < m then p else m
  | none => m

/-- The `min_pos` fold of `_clean_response` (model_manager.py:207-212): start
at `len(response)` and replace by any found position that is strictly
smaller. -/
def minStopPos (s : List Char) : Nat :=
  stop_sequences.foldl (stopFold s) s.length

/-- Truncation at the earliest stop sequence (model_manager.py:214-216). -/
def truncAtStop (s : List Char) : List Char :=
  if minStopPos s < s.length then s.take (minStopPos s) else s

/-- `max(response.rfind('.'), response.rfind('!'), response.rfind('?'))`
(model_manager.py:224-228). -/
def lastComplete (t : List Char) : Int :=
  max (pyRfind '.' t) (max (pyRfind '!' t) (pyRfind '?' t))

/-- The incomplete-trailing-sentence pass (model_manager.py:222-230): when the
text is nonempty and does not end in `.`, `!` or `?`, truncate just after the
last sentence-terminal character provided it lies beyond half the length
(`last_complete > len(response) * 0.5`, for integers exactly
`2 * last_complete > len`). -/
def dropIncomplete (t : List Char) : List Char :=
  match t.getLast? with
  | none => t
  | some c =>
    if c = '.' ∨ c = '!' ∨ c = '?' then t
    else if 2 * lastComplete t > (t.length : Int) then
      t.take (lastComplete t + 1).toNat
    else t

/-- `ModelManager._clean_response` (model_manager.py:198-232). -/
def clean_response (s : List Char) : List Char :=
  dropIncomplete (pyStrip (truncAtStop s))

/-- `r` occurs contiguously inside `s`. -/
def SubstringOf (r s : List Char) : Prop :=
  ∃ u v, s = u ++ r ++ v

/-- A sentence-terminal character, per `_clean_response`. -/
def terminalChar (c : Char) : Bool :=
  c == '.' || c == '!' || c == '?'

/-- Spec-side truncation position, following the claim's words: the earliest
occurrence position of any configured stop marker (the minimum of all found
positions; the whole length when no marker occurs). -/
def earliestStopSpec (s : List Char) : Nat :=
  (stop_sequences.filterMap (fun q => pyFind q s)).foldr Nat.min s.length

/-- Spec-side stop-marker truncation: cut at the earliest occurrence. -/
def truncSpec (s : List Char) : List Char :=
  s.take (earliestStopSpec s)

/-- Spec-side index of the last sentence-terminal character, `none` when no
such character occurs. -/
def lastTerminalSpec : List Char → Option Nat
  | [] => none
  | c :: rest =>
    match lastTerminalSpec rest with
    | some i => some (i + 1)
    | none => if terminalChar c then some 0 else none

/-- Spec-side incomplete-sentence pass, following the claim's words: if the
text does not end in sentence-terminal punctuation, back-truncate to the last
sentence-terminal character only when it lies in the latter half. -/
def dropIncompleteSpec (t : List Char) : List Char :=
  match t.getLast? with
  | none => t
  | some c =>
    if c = '.' ∨ c = '!' ∨ c = '?' then t
    else
      match lastTerminalSpec t with
      | some i => if 2 * i > t.length then t.take (i + 1) else t
      | none => t

/-- Spec-side post-processing pass, assembled from the claim's words. -/
def clean_response_spec (s : List Char) : List Char :=
  dropIncompleteSpec (pyStrip (truncSpec s))

/-! ## Concurrency model of `get_model` (two callers, one key)

`get_model` takes `_cache_lock` for the cache check (model_manager.py:142-153)
and again for the insertion (181-183), but runs the backend load between them
with no per-key lock — line 155: "Simple approach: just load the model (allow
concurrent loads for now)".  Two callers A and B call `get_model` for the same
key, not cached initially, with free capacity and sufficient memory (so the
eviction loop between load and insert does nothing).  Each caller is a
three-step program — atomic cache check, backend load, atomic insert — and a
schedule interleaves them (`true` steps A).  `loadsA`/`loadsB` count backend
`load` invocations; A's load produces handle 1, B's handle 2 (fresh handles
from two separate loads are distinct objects). -/

inductive CPhase
  | toCheck
  | toLoad
  | toInsert
  | finished
deriving DecidableEq

structure CState where
  cache : Option Nat
  loadsA : Nat
  loadsB : Nat
  pA : CPhase
  pB : CPhase
  resA : Option Nat
  resB : Option Nat
deriving DecidableEq

def handleA : Nat := 1
def handleB : Nat := 2

/-- One step of caller A: the next atomic action of its `get_model` call. -/
def stepA (c : CState) : CState :=
  match c.pA with
  | .toCheck =>
    match c.cache with
    | some h => { c with pA := .finished, resA := some h }
    | none => { c with pA := .toLoad }
  | .toLoad => { c with loadsA := c.loadsA + 1, pA := .toInsert }
  | .toInsert =>
    { c with cache := some handleA, pA := .finished, resA := some handleA }
  | .finished => c

/-- One step of caller B. -/
def stepB (c : CState) : CState :=
  match c.pB with
  | .toCheck =>
    match c.cache with
    | some h => { c with pB := .finished, resB := some h }
    | none => { c with pB := .toLoad }
  | .toLoad => { c with loadsB := c.loadsB + 1, pB := .toInsert }
  | .toInsert =>
    { c with cache := some handleB, pB := .finished, resB := some handleB }
  | .finished => c

/-- Both callers about to run their cache check on an uncached key. -/
def initC : CState := ⟨none, 0, 0, .toCheck, .toCheck, none, none⟩

/-- Run a schedule: `true` steps caller A, `false` steps caller B. -/
def runSched (l : List Bool) : CState :=
  l.foldl (fun c b => if b then stepA c else stepB c) initC

/-- Schedule invariant: a caller that has not completed its load has count 0,
one that is about to insert has count exactly 1, and no caller ever loads
twice; a populated cache means somebody loaded; a finished caller holds a
result and sees a populated cache. -/
def CInv (c : CState) : Prop :=
  ((c.pA = CPhase.toCheck ∨ c.pA = CPhase.toLoad) → c.loadsA = 0) ∧
  (c.pA = CPhase.toInsert → c.loadsA = 1) ∧
  c.loadsA ≤ 1 ∧
  ((c.pB = CPhase.toCheck ∨ c.pB = CPhase.toLoad) → c.loadsB = 0) ∧
  (c.pB = CPhase.toInsert → c.loadsB = 1) ∧
  c.loadsB ≤ 1 ∧
  (c.cache.isSome = true → 1 ≤ c.loadsA + c.loadsB) ∧
  (c.pA = CPhase.finished → c.resA.isSome = true ∧ c.cache.isSome = true) ∧
  (c.pB = CPhase.finished → c.resB.isSome = true ∧ c.cache.isSome = true)

/-! ## Lemmas and theorems -/

section AssocLemmas

variable {β : Type}

@[simp] theorem keys_nil : keys ([] : List (String × β)) = [] := rfl

@[simp] theorem keys_cons (p : String × β) (rest : List (String × β)) :
    keys (p :: rest) = p.1 :: keys rest := rfl

@[simp] theorem keys_append (l₁ l₂ : List (String × β)) :
    keys (l₁ ++ l₂) = keys l₁ ++ keys l₂ := by
  simp [keys]

theorem getKey_eq_none_iff (l : List (String × β)) (k : String) :
    getKey l k = none ↔ k ∉ keys l := by
  induction l with
  | nil => simp [getKey]
  | cons p rest ih =>
    by_cases h : p.1 = k
    · subst h
      simp [getKey]
    · have hne : k ≠ p.1 := fun he => h he.symm
      simp [getKey, h, ih, hne]

theorem getKey_isSome_of_mem {l : List (String × β)} {k : String}
    (h : k ∈ keys l) : ∃ v, getKey l k = some v := by
  rcases hv : getKey l k with _ | v
  · exact absurd ((getKey_eq_none_iff l k).1 hv) (fun hn => hn h)
  · exact ⟨v, rfl⟩

theorem mem_keys_of_getKey_some {l : List (String × β)} {k : String} {v : β}
    (h : getKey l k = some v) : k ∈ keys l := by
  by_contra hn
  rw [(getKey_eq_none_iff l k).2 hn] at h
  exact Option.noConfusion h

theorem keys_setKey_of_mem (l : List (String × β)) (k : String) (v : β)
    (h : k ∈ keys l) : keys (setKey l k v) = keys l := by
  induction l with
  | nil => simp at h
  | cons p rest ih =>
    by_cases hp : p.1 = k
    · simp [setKey, hp]
    · have hmem : k ∈ keys rest := by
        rcases List.mem_cons.1 (by simpa using h) with h1 | h2
        · exact absurd h1 (fun he => hp he.symm)
        · exact h2
      simp [setKey, hp, ih hmem]

theorem keys_setKey_of_not_mem (l : List (String × β)) (k : String) (v : β)
    (h : k ∉ keys l) : keys (setKey l k v) = keys l ++ [k] := by
  induction l with
  | nil => simp [setKey]
  | cons p rest ih =>
    have hp : p.1 ≠ k := by
      intro he; exact h (by simp [he])
    have hrest : k ∉ keys rest := fun hm => h (by simp [hm])
    simp [setKey, hp, ih hrest]

theorem keys_delKey_subset (l : List (String × β)) (k k' : String)
    (h : k' ∈ keys (delKey l k)) : k' ∈ keys l := by
  induction l with
  | nil => simp [delKey] at h
  | cons p rest ih =>
    by_cases hp : p.1 = k
    · simp only [delKey, if_pos hp] at h
      simp [List.mem_cons.2 (Or.inr h)]
    · simp only [delKey, if_neg hp, keys_cons] at h
      rcases List.mem_cons.1 h with h1 | h2
      · simp [h1]
      · simp [ih h2]

theorem mem_keys_delKey_of_ne (l : List (String × β)) (k k' : String)
    (hne : k' ≠ k) (h : k' ∈ keys l) : k' ∈ keys (delKey l k) := by
  induction l with
  | nil => simp at h
  | cons p rest ih =>
    by_cases hp : p.1 = k
    · rcases List.mem_cons.1 (by simpa using h) with h1 | h2
      · exact absurd (h1.symm ▸ hp) hne
      · simpa [delKey, hp] using h2
    · rcases List.mem_cons.1 (by simpa using h) with h1 | h2
      · simp [delKey, hp, h1]
      · simp [delKey, hp]
        exact Or.inr (ih h2)

theorem not_mem_keys_delKey {l : List (String × β)} {k : String}
    (hnd : (keys l).Nodup) : k ∉ keys (delKey l k) := by
  induction l with
  | nil => simp [delKey]
  | cons p rest ih =>
    rcases List.nodup_cons.1 (by simpa using hnd) with ⟨hp, hrest⟩
    by_cases hk : p.1 = k
    · subst hk
      simpa [delKey] using hp
    · intro hmem
      rcases List.mem_cons.1 (by simpa [delKey, hk] using hmem) with h1 | h2
      · exact hk h1.symm
      · exact ih hrest h2

theorem length_delKey_of_mem {l : List (String × β)} {k : String}
    (h : k ∈ keys l) : (delKey l k).length + 1 = l.length := by
  induction l with
  | nil => simp at h
  | cons p rest ih =>
    by_cases hp : p.1 = k
    · simp [delKey, hp]
    · have hmem : k ∈ keys rest := by
        rcases List.mem_cons.1 (by simpa using h) with h1 | h2
        · exact absurd h1 (fun he => hp he.symm)
        · exact h2
      simp [delKey, hp, ← ih hmem]

theorem nodup_keys_delKey {l : List (String × β)} {k : String}
    (hnd : (keys l).Nodup) : (keys (delKey l k)).Nodup := by
  induction l with
  | nil => simp [delKey]
  | cons p rest ih =>
    rcases List.nodup_cons.1 (by simpa using hnd) with ⟨hp, hrest⟩
    by_cases hk : p.1 = k
    · simpa [delKey, hk] using hrest
    · simp only [delKey, if_neg hk, keys_cons, List.nodup_cons]
      exact ⟨fun hm => hp (keys_delKey_subset rest k p.1 hm), ih hrest⟩

theorem nodup_keys_setKey {l : List (String × β)} {k : String} {v : β}
    (hnd : (keys l).Nodup) : (keys (setKey l k v)).Nodup := by
  by_cases h : k ∈ keys l
  · rw [keys_setKey_of_mem l k v h]; exact hnd
  · rw [keys_setKey_of_not_mem l k v h]
    simpa [List.nodup_append] using ⟨hnd, fun hm => h hm⟩

theorem getKey_setKey_self (l : List (String × β)) (k : String) (v : β) :
    getKey (setKey l k v) k = some v := by
  induction l with
  | nil => simp [setKey, getKey]
  | cons p rest ih =>
    by_cases hp : p.1 = k
    · simp [setKey, hp, getKey]
    · simp [setKey, hp, getKey, ih]

theorem getKey_setKey_ne (l : List (String × β)) (k k' : String) (v : β)
    (hne : k' ≠ k) : getKey (setKey l k v) k' = getKey l k' := by
  have hkk : k ≠ k' := fun he => hne he.symm
  induction l with
  | nil => simp [setKey, getKey, hkk]
  | cons p rest ih =>
    by_cases hp : p.1 = k
    · subst hp
      simp [setKey, getKey, hkk]
    · simp [setKey, getKey, hp, ih]

theorem mem_of_setKey_preserve {l : List (String × β)} {k k' : String} {v v' : β}
    (hne : k' ≠ k) (h : (k', v') ∈ l) : (k', v') ∈ setKey l k v := by
  induction l with
  | nil => simp at h
  | cons p rest ih =>
    by_cases hp : p.1 = k
    · rcases List.mem_cons.1 h with h1 | h2
      · exact absurd (by rw [← h1] at hp; exact hp) hne
      · simp [setKey, hp]
        exact Or.inr h2
    · rcases List.mem_cons.1 h with h1 | h2
      · simp [setKey, hp, h1]
      · simp [setKey, hp]
        exact Or.inr (ih h2)

theorem pyMinBySnd_mem (p : String × Nat) (l : List (String × Nat)) :
    pyMinBySnd p l = p ∨ pyMinBySnd p l ∈ l := by
  induction l generalizing p with
  | nil => simp [pyMinBySnd]
  | cons q rest ih =>
    by_cases hq : q.2 < p.2
    · simp only [pyMinBySnd, if_pos hq]
      rcases ih q with h | h
      · exact Or.inr (List.mem_cons.2 (Or.inl h))
      · exact Or.inr (List.mem_cons.2 (Or.inr h))
    · simp only [pyMinBySnd, if_neg hq]
      rcases ih p with h | h
      · exact Or.inl h
      · exact Or.inr (List.mem_cons.2 (Or.inr h))

theorem pyMinBySnd_le (p : String × Nat) (l : List (String × Nat)) :
    (pyMinBySnd p l).2 ≤ p.2 ∧ ∀ q ∈ l, (pyMinBySnd p l).2 ≤ q.2 := by
  induction l generalizing p with
  | nil => simp [pyMinBySnd]
  | cons q rest ih =>
    by_cases hq : q.2 < p.2
    · simp only [pyMinBySnd, if_pos hq]
      rcases ih q with ⟨h1, h2⟩
      refine ⟨le_trans h1 (le_of_lt hq), ?_⟩
      intro r hr
      rcases List.mem_cons.1 hr with h | h
      · rw [h]; exact h1
      · exact h2 r h
    · simp only [pyMinBySnd, if_neg hq]
      rcases ih p with ⟨h1, h2⟩
      refine ⟨h1, ?_⟩
      intro r hr
      rcases List.mem_cons.1 hr with h | h
      · rw [h]; exact le_trans h1 (le_of_not_lt hq)
      · exact h2 r h

end AssocLemmas

section MoveToEndLemmas

variable {β : Type}

theorem mem_keys_moveToEnd (l : List (String × β)) (k k' : String) :
    k' ∈ keys (moveToEnd l k) ↔ k' ∈ keys l := by
  unfold moveToEnd
  rcases hv : getKey l k with _ | v
  · exact Iff.rfl
  · constructor
    · intro h
      rcases (by simpa using h : k' ∈ keys (delKey l k) ∨ k' = k) with h1 | h2
      · exact keys_delKey_subset l k k' h1
      · exact h2 ▸ mem_keys_of_getKey_some hv
    · intro h
      by_cases he : k' = k
      · simp [he]
      · simp
        exact Or.inl (mem_keys_delKey_of_ne l k k' he h)

theorem nodup_keys_moveToEnd {l : List (String × β)} {k : String}
    (h : (keys l).Nodup) : (keys (moveToEnd l k)).Nodup := by
  unfold moveToEnd
  rcases hv : getKey l k with _ | v
  · exact h
  · rw [keys_append, List.nodup_append]
    refine ⟨nodup_keys_delKey h, by simp, ?_⟩
    intro a ha hb
    rcases (by simpa using hb : a = k) with rfl
    exact not_mem_keys_delKey h ha

theorem length_moveToEnd (l : List (String × β)) (k : String) :
    (moveToEnd l k).length = l.length := by
  unfold moveToEnd
  rcases hv : getKey l k with _ | v
  · rfl
  · have hm := length_delKey_of_mem (mem_keys_of_getKey_some hv)
    simp only [List.length_append, List.length_cons, List.length_nil]
    omega

theorem getLast_moveToEnd {l : List (String × β)} {k : String} {v : β}
    (hv : getKey l k = some v) : (moveToEnd l k).getLast? = some (k, v) := by
  unfold moveToEnd
  rw [hv]
  simp

end MoveToEndLemmas

section MoreAssocLemmas

variable {β : Type}

theorem mem_keys_of_mem {l : List (String × β)} {p : String × β}
    (h : p ∈ l) : p.1 ∈ keys l :=
  List.mem_map_of_mem Prod.fst h

theorem mem_of_getKey_some {l : List (String × β)} {k : String} {v : β}
    (h : getKey l k = some v) : (k, v) ∈ l := by
  induction l with
  | nil => simp [getKey] at h
  | cons p rest ih =>
    by_cases hp : p.1 = k
    · simp [getKey, hp] at h
      subst hp
      simp [← h]
    · simp [getKey, hp] at h
      exact List.mem_cons.2 (Or.inr (ih h))

theorem val_unique_of_nodup {l : List (String × β)} {k : String} {v w : β}
    (hnd : (keys l).Nodup) (hv : (k, v) ∈ l) (hw : (k, w) ∈ l) : v = w := by
  induction l with
  | nil => simp at hv
  | cons p rest ih =>
    rcases List.nodup_cons.1 (by simpa using hnd) with ⟨hp, hrest⟩
    rcases List.mem_cons.1 hv with hv1 | hv2 <;> rcases List.mem_cons.1 hw with hw1 | hw2
    · exact (Prod.ext_iff.1 (hv1.trans hw1.symm)).2
    · have hk : p.1 = k := (Prod.ext_iff.1 hv1.symm).1
      exact absurd (by rw [hk]; exact mem_keys_of_mem hw2) hp
    · have hk : p.1 = k := (Prod.ext_iff.1 hw1.symm).1
      exact absurd (by rw [hk]; exact mem_keys_of_mem hv2) hp
    · exact ih hrest hv2 hw2

theorem mem_keys_setKey_iff (l : List (String × β)) (k k' : String) (v : β) :
    k' ∈ keys (setKey l k v) ↔ k' ∈ keys l ∨ k' = k := by
  by_cases h : k ∈ keys l
  · rw [keys_setKey_of_mem l k v h]
    exact ⟨Or.inl, fun hh => hh.elim id (fun he => he ▸ h)⟩
  · rw [keys_setKey_of_not_mem l k v h]
    simp

theorem setKey_of_not_mem {l : List (String × β)} {k : String} (v : β)
    (h : k ∉ keys l) : setKey l k v = l ++ [(k, v)] := by
  induction l with
  | nil => simp [setKey]
  | cons p rest ih =>
    have hp : p.1 ≠ k := fun he => h (by simp [he])
    have hrest : k ∉ keys rest := fun hm => h (by simp [hm])
    simp [setKey, hp, ih hrest]

theorem keys_ne_nil_of_cache {st : MMState} (hwf : WF st)
    (hne : st.models_cache ≠ []) : st.last_access ≠ [] := by
  rcases hc : st.models_cache with _ | ⟨q, rest⟩
  · exact absurd hc hne
  · have : q.1 ∈ keys st.models_cache := by simp [hc]
    have := hwf.cache_sub_access q.1 this
    intro hla
    rw [hla] at this
    simp at this

end MoreAssocLemmas

/-- On a well-formed state with a nonempty cache, one eviction succeeds: it
removes exactly the key selected by `lruKey` from all three dicts, preserves
well-formedness and shrinks the cache by one entry. -/
theorem evict_spec {st : MMState} (hwf : WF st) (hne : st.models_cache ≠ []) :
    ∃ lru,
      lruKey st = some lru ∧
      evict_least_recently_used st =
        some ⟨delKey st.models_cache lru, delKey st.last_access lru,
              delKey st.load_times lru⟩ ∧
      lru ∈ keys st.models_cache ∧
      WF ⟨delKey st.models_cache lru, delKey st.last_access lru,
          delKey st.load_times lru⟩ ∧
      (delKey st.models_cache lru).length + 1 = st.models_cache.length := by
  obtain ⟨p, rest, hla⟩ : ∃ p rest, st.last_access = p :: rest := by
    rcases h : st.last_access with _ | ⟨p, rest⟩
    · exact absurd h (keys_ne_nil_of_cache hwf hne)
    · exact ⟨p, rest, rfl⟩
  have hmin_mem : pyMinBySnd p rest ∈ st.last_access := by
    rw [hla]
    rcases pyMinBySnd_mem p rest with h | h
    · rw [h]; exact List.mem_cons_self _ _
    · exact List.mem_cons.2 (Or.inr h)
  have hlru_la : (pyMinBySnd p rest).1 ∈ keys st.last_access :=
    mem_keys_of_mem hmin_mem
  have hlru_c : (pyMinBySnd p rest).1 ∈ keys st.models_cache :=
    hwf.access_sub_cache _ hlru_la
  have hlru_t : (pyMinBySnd p rest).1 ∈ keys st.load_times :=
    hwf.cache_sub_times _ hlru_c
  refine ⟨(pyMinBySnd p rest).1, by simp [lruKey, hla], ?_, hlru_c, ?_, ?_⟩
  · simp [evict_least_recently_used, hne, hla, hlru_c, hlru_t]
  · refine ⟨nodup_keys_delKey hwf.nodupC, nodup_keys_delKey hwf.nodupA,
            nodup_keys_delKey hwf.nodupT, ?_, ?_, ?_⟩
    · intro k hk
      have hk' := keys_delKey_subset _ _ _ hk
      have hne' : k ≠ (pyMinBySnd p rest).1 := fun he =>
        not_mem_keys_delKey hwf.nodupC (he ▸ hk)
      exact mem_keys_delKey_of_ne _ _ _ hne' (hwf.cache_sub_access k hk')
    · intro k hk
      have hk' := keys_delKey_subset _ _ _ hk
      have hne' : k ≠ (pyMinBySnd p rest).1 := fun he =>
        not_mem_keys_delKey hwf.nodupA (he ▸ hk)
      exact mem_keys_delKey_of_ne _ _ _ hne' (hwf.access_sub_cache k hk')
    · intro k hk
      have hk' := keys_delKey_subset _ _ _ hk
      have hne' : k ≠ (pyMinBySnd p rest).1 := fun he =>
        not_mem_keys_delKey hwf.nodupC (he ▸ hk)
      exact mem_keys_delKey_of_ne _ _ _ hne' (hwf.cache_sub_times k hk')
  · exact length_delKey_of_mem hlru_c

/-- With sufficient memory (probe at or above the 2 GB floor) and the store
strictly below capacity, the eviction loop exits immediately. -/
theorem evictLoop_no_evict {cfg : Config} {st : MMState} (fuel : Nat)
    (havail : ¬ cfg.availGB < 2)
    (hlt : st.models_cache.length < cfg.max_model_cache_size) :
    evictLoop cfg (fuel + 1) st = some st := by
  have hse : should_evict_model cfg st = false := by
    simp [should_evict_model, havail]
    omega
  simp [evictLoop, hse]

/-- With sufficient memory and the store exactly at capacity (at least 1), the
eviction loop performs exactly one eviction — of the `lruKey` entry — and
exits. -/
theorem evictLoop_at_capacity {cfg : Config} {st : MMState}
    (havail : ¬ cfg.availGB < 2) (hwf : WF st)
    (hcap : 1 ≤ cfg.max_model_cache_size)
    (heq : st.models_cache.length = cfg.max_model_cache_size) :
    ∃ lru,
      lruKey st = some lru ∧
      evictLoop cfg (st.models_cache.length + 1) st =
        some ⟨delKey st.models_cache lru, delKey st.last_access lru,
              delKey st.load_times lru⟩ ∧
      lru ∈ keys st.models_cache ∧
      WF ⟨delKey st.models_cache lru, delKey st.last_access lru,
          delKey st.load_times lru⟩ ∧
      (delKey st.models_cache lru).length + 1 = st.models_cache.length := by
  have hne : st.models_cache ≠ [] := by
    intro h
    rw [h] at heq
    simp at heq
    omega
  obtain ⟨lru, hlru, hev, hmem, hwf', hlen⟩ := evict_spec hwf hne
  have hse : should_evict_model cfg st = true := by
    simp [should_evict_model]
    omega
  refine ⟨lru, hlru, ?_, hmem, hwf', hlen⟩
  have hfuel : st.models_cache.length + 1 = (st.models_cache.length - 1 + 1) + 1 := by
    omega
  have hlt' : (delKey st.models_cache lru).length < cfg.max_model_cache_size := by
    omega
  rw [hfuel]
  show (if should_evict_model cfg st then
          match evict_least_recently_used st with
          | none => none
          | some st' => evictLoop cfg (st.models_cache.length - 1 + 1) st'
        else some st) = _
  rw [if_pos hse, hev]
  exact evictLoop_no_evict (st.models_cache.length - 1) havail hlt'

/-! ## Divergence of the eviction loop -/

/-- With the memory probe stuck below the 2 GB floor, the eviction loop never
exits once the store is empty: `_should_evict_model` keeps returning true and
`_evict_least_recently_used` returns immediately without changing anything. -/
theorem evictLoop_none_of_empty_cache (cfg : Config) (hmem : cfg.availGB < 2) :
    ∀ (fuel : Nat) (st : MMState), st.models_cache = [] →
      evictLoop cfg fuel st = none := by
  intro fuel
  induction fuel with
  | zero => intro st _; rfl
  | succ n ih =>
    intro st hst
    have hse : should_evict_model cfg st = true := by
      simp [should_evict_model, hmem]
    have hev : evict_least_recently_used st = some st := by
      simp [evict_least_recently_used, hst]
    simp [evictLoop, hse, hev, ih st hst]

/-- Inserting a fresh key (the tail of `get_model`'s miss path,
model_manager.py:181-183) preserves well-formedness, provided the key already
has a recorded load time. -/
theorem WF_insert {st : MMState} (hwf : WF st) {key : String} {h now : Nat}
    (_hc : key ∉ keys st.models_cache) (ht : key ∈ keys st.load_times) :
    WF ⟨setKey st.models_cache key h, setKey st.last_access key now,
        st.load_times⟩ := by
  refine ⟨nodup_keys_setKey hwf.nodupC, nodup_keys_setKey hwf.nodupA,
          hwf.nodupT, ?_, ?_, ?_⟩
  · intro k hk
    rcases (mem_keys_setKey_iff _ _ _ _).1 hk with hk1 | hk2
    · exact (mem_keys_setKey_iff _ _ _ _).2 (Or.inl (hwf.cache_sub_access k hk1))
    · exact (mem_keys_setKey_iff _ _ _ _).2 (Or.inr hk2)
  · intro k hk
    rcases (mem_keys_setKey_iff _ _ _ _).1 hk with hk1 | hk2
    · exact (mem_keys_setKey_iff _ _ _ _).2 (Or.inl (hwf.access_sub_cache k hk1))
    · exact (mem_keys_setKey_iff _ _ _ _).2 (Or.inr hk2)
  · intro k hk
    rcases (mem_keys_setKey_iff _ _ _ _).1 hk with hk1 | hk2
    · exact hwf.cache_sub_times k hk1
    · exact hk2 ▸ ht

/-- The miss path of `get_model` with a successful load, sufficient memory and
the store within capacity: the call completes, stays well formed and within
capacity; below capacity nothing is evicted, at capacity exactly the `lruKey`
entry is evicted. -/
theorem get_model_miss_ok {cfg : Config} {st : MMState} {key : String}
    (h now loadDur : Nat)
    (havail : ¬ cfg.availGB < 2) (hwf : WF st)
    (hcap : 1 ≤ cfg.max_model_cache_size)
    (hmiss : key ∉ keys st.models_cache)
    (hle : st.models_cache.length ≤ cfg.max_model_cache_size) :
    ∃ st', get_model cfg st key now (.ok h) loadDur
        (st.models_cache.length + 1) = some (.ok h, st') ∧ WF st' ∧
      st'.models_cache.length ≤ cfg.max_model_cache_size ∧
      (st.models_cache.length < cfg.max_model_cache_size →
        st'.models_cache = st.models_cache ++ [(key, h)]) ∧
      (st.models_cache.length = cfg.max_model_cache_size →
        ∃ lru, lruKey st = some lru ∧
          st'.models_cache = delKey st.models_cache lru ++ [(key, h)] ∧
          st'.models_cache.length = cfg.max_model_cache_size) := by
  have hget : getKey st.models_cache key = none :=
    (getKey_eq_none_iff _ _).2 hmiss
  have hwf1 : WF ⟨st.models_cache, st.last_access,
      setKey st.load_times key loadDur⟩ := by
    refine ⟨hwf.nodupC, hwf.nodupA, nodup_keys_setKey hwf.nodupT,
            hwf.cache_sub_access, hwf.access_sub_cache, ?_⟩
    intro k hk
    exact (mem_keys_setKey_iff _ _ _ _).2 (Or.inl (hwf.cache_sub_times k hk))
  rcases lt_or_eq_of_le hle with hlt | heq
  · -- below capacity: the eviction loop exits immediately
    have hloop : evictLoop cfg (st.models_cache.length + 1)
        ⟨st.models_cache, st.last_access, setKey st.load_times key loadDur⟩ =
        some ⟨st.models_cache, st.last_access,
              setKey st.load_times key loadDur⟩ :=
      evictLoop_no_evict st.models_cache.length havail hlt
    refine ⟨⟨setKey st.models_cache key h, setKey st.last_access key now,
             setKey st.load_times key loadDur⟩, ?_, ?_, ?_, ?_, ?_⟩
    · simp [get_model, hget, hloop]
    · exact WF_insert hwf1 hmiss ((mem_keys_setKey_iff _ _ _ _).2 (Or.inr rfl))
    · simp only [setKey_of_not_mem h hmiss, List.length_append,
        List.length_cons, List.length_nil]
      omega
    · intro _
      exact setKey_of_not_mem h hmiss
    · intro habs
      omega
  · -- at capacity: exactly one eviction, then the insertion
    obtain ⟨lru, hlru, hloop, hmemlru, hwf2, hlen⟩ :=
      evictLoop_at_capacity havail hwf1 hcap heq
    have hlen' : (delKey st.models_cache lru).length + 1 =
        st.models_cache.length := hlen
    have hkeylru : key ≠ lru := fun he => hmiss (he ▸ hmemlru)
    have hmiss2 : key ∉ keys (delKey st.models_cache lru) := fun hm =>
      hmiss (keys_delKey_subset _ _ _ hm)
    have htime2 : key ∈ keys (delKey (setKey st.load_times key loadDur) lru) :=
      mem_keys_delKey_of_ne _ _ _ hkeylru
        ((mem_keys_setKey_iff _ _ _ _).2 (Or.inr rfl))
    refine ⟨⟨setKey (delKey st.models_cache lru) key h,
             setKey (delKey st.last_access lru) key now,
             delKey (setKey st.load_times key loadDur) lru⟩, ?_, ?_, ?_, ?_, ?_⟩
    · simp [get_model, hget, hloop]
    · exact WF_insert hwf2 hmiss2 htime2
    · simp only [setKey_of_not_mem h hmiss2, List.length_append,
        List.length_cons, List.length_nil]
      omega
    · intro habs
      omega
    · intro _
      refine ⟨lru, hlru, setKey_of_not_mem h hmiss2, ?_⟩
      simp only [setKey_of_not_mem h hmiss2, List.length_append,
        List.length_cons, List.length_nil]
      omega

/-- A single `runStep` preserves well-formedness and the capacity bound, given
sufficient memory and a positive capacity. -/
theorem runStep_preserves {cfg : Config} (havail : ¬ cfg.availGB < 2)
    (hcap : 1 ≤ cfg.max_model_cache_size) (r : Req) {st : MMState}
    (hwf : WF st) (hle : st.models_cache.length ≤ cfg.max_model_cache_size) :
    WF (runStep cfg st r) ∧
    (runStep cfg st r).models_cache.length ≤ cfg.max_model_cache_size := by
  unfold runStep
  rcases hget : getKey st.models_cache r.key with _ | h
  · cases hres : r.loadResult with
    | error e =>
      simp only [get_model, hget, hres]
      exact ⟨hwf, hle⟩
    | ok hv =>
      obtain ⟨st', he, hwf', hle', _, _⟩ :=
        get_model_miss_ok hv r.now r.loadDur havail hwf hcap
          ((getKey_eq_none_iff _ _).1 hget) hle
      rw [he]
      exact ⟨hwf', hle'⟩
  · have hkla : r.key ∈ keys st.last_access :=
      hwf.cache_sub_access _ (mem_keys_of_getKey_some hget)
    simp only [get_model, hget]
    constructor
    · refine ⟨nodup_keys_moveToEnd hwf.nodupC, nodup_keys_setKey hwf.nodupA,
              hwf.nodupT, ?_, ?_, ?_⟩
      · intro k hk
        rw [keys_setKey_of_mem _ _ _ hkla]
        exact hwf.cache_sub_access k ((mem_keys_moveToEnd _ _ _).1 hk)
      · intro k hk
        rw [keys_setKey_of_mem _ _ _ hkla] at hk
        exact (mem_keys_moveToEnd _ _ _).2 (hwf.access_sub_cache k hk)
      · intro k hk
        exact hwf.cache_sub_times k ((mem_keys_moveToEnd _ _ _).1 hk)
    · rw [length_moveToEnd]
      exact hle

/-- Any sequence of `get_model` calls from the empty manager keeps the state
well formed and within capacity. -/
theorem runSeq_bounded {cfg : Config} (havail : ¬ cfg.availGB < 2)
    (hcap : 1 ≤ cfg.max_model_cache_size) (reqs : List Req) :
    WF (runSeq cfg reqs) ∧
    (runSeq cfg reqs).models_cache.length ≤ cfg.max_model_cache_size := by
  have hgen : ∀ (l : List Req) (st : MMState), WF st →
      st.models_cache.length ≤ cfg.max_model_cache_size →
      WF (l.foldl (runStep cfg) st) ∧
      (l.foldl (runStep cfg) st).models_cache.length ≤
        cfg.max_model_cache_size := by
    intro l
    induction l with
    | nil => intro st hwf hle; exact ⟨hwf, hle⟩
    | cons r rest ih =>
      intro st hwf hle
      obtain ⟨hwf', hle'⟩ := runStep_preserves havail hcap r hwf hle
      exact ih _ hwf' hle'
  exact hgen reqs ⟨[], [], []⟩
    ⟨by simp, by simp, by simp, by simp, by simp, by simp⟩ (by simp)

/-- **C3**: with sufficient available memory (probe at or above the 2 GB
floor) and a positive configured capacity, (a) for every sequence of
`get_model` calls starting from an empty manager the cache never holds more
than `max_model_cache_size` entries after a call completes, and (b) from a
well-formed state holding exactly capacity-many entries, loading one more
model completes having evicted exactly one entry — the least-recently-accessed
`lruKey` — leaving the size equal to (hence not above) capacity. -/
theorem C3_cache_size_bounded_by_capacity (cfg : Config) (st : MMState)
    (key : String) (h now loadDur : Nat)
    (havail : ¬ cfg.availGB < 2) (hcap : 1 ≤ cfg.max_model_cache_size)
    (hwf : WF st) :
    (∀ reqs : List Req,
      (runSeq cfg reqs).models_cache.length ≤ cfg.max_model_cache_size) ∧
    (key ∉ keys st.models_cache →
      st.models_cache.length = cfg.max_model_cache_size →
      ∃ lru st₂, lruKey st = some lru ∧
        get_model cfg st key now (.ok h) loadDur (st.models_cache.length + 1)
          = some (.ok h, st₂) ∧
        st₂.models_cache = delKey st.models_cache lru ++ [(key, h)] ∧
        st₂.models_cache.length = cfg.max_model_cache_size) := by
  constructor
  · intro reqs
    exact (runSeq_bounded havail hcap reqs).2
  · intro hmiss heq
    obtain ⟨st', he, _, _, _, hat⟩ :=
      get_model_miss_ok h now loadDur havail hwf hcap hmiss (le_of_eq heq)
    obtain ⟨lru, hlru, hshape, hlen⟩ := hat heq
    exact ⟨lru, st', hlru, he, hshape, hlen⟩

/-- Witness for C3 at a concrete input: capacity 2, 4 GB available, three
distinct loads stay within capacity; a third load over the full cache evicts
exactly the least-recently-used entry. -/
theorem C3_cache_size_bounded_by_capacity_witness :
    (runSeq ⟨2, 4⟩
        [⟨"a", 1, .ok 10, 3⟩, ⟨"b", 2, .ok 20, 4⟩, ⟨"c", 5, .ok 30, 1⟩]
      ).models_cache.length ≤ 2 ∧
    (∃ lru st₂,
      lruKey ⟨[("a", 10), ("b", 20)], [("a", 1), ("b", 2)],
             [("a", 3), ("b", 4)]⟩ = some lru ∧
      get_model ⟨2, 4⟩ ⟨[("a", 10), ("b", 20)], [("a", 1), ("b", 2)],
             [("a", 3), ("b", 4)]⟩ "c" 7 (.ok 30) 1 3 = some (.ok 30, st₂) ∧
      st₂.models_cache = delKey [("a", 10), ("b", 20)] lru ++ [("c", 30)] ∧
      st₂.models_cache.length = 2) := by
  have H := C3_cache_size_bounded_by_capacity ⟨2, 4⟩
      ⟨[("a", 10), ("b", 20)], [("a", 1), ("b", 2)], [("a", 3), ("b", 4)]⟩
      "c" 30 7 1 (by norm_num) (by norm_num)
      ⟨by decide, by decide, by decide, by decide, by decide, by decide⟩
  exact ⟨H.1 _, H.2 (by decide) (by decide)⟩

/-- **C6**: a `get_model` hit refreshes the key's last-access time to the
current time and moves it to the most-recently-used end of the ordered cache;
in the resulting state, any eviction that completes while an entry with a
strictly older access time exists keeps the hit key cached (the LRU selection
picks a colder key). -/
theorem C6_hit_promotes_to_most_recently_used (cfg : Config) (st : MMState)
    (key : String) (h : Nat) (now : Nat) (loadResult : Except String Nat)
    (loadDur fuel : Nat) (hwf : WF st)
    (hget : getKey st.models_cache key = some h)
    (hcold : ∃ p ∈ st.last_access, p.1 ≠ key ∧ p.2 < now) :
    get_model cfg st key now loadResult loadDur fuel =
      some (.ok h,
        ⟨moveToEnd st.models_cache key, setKey st.last_access key now,
         st.load_times⟩) ∧
    getKey (setKey st.last_access key now) key = some now ∧
    (moveToEnd st.models_cache key).getLast? = some (key, h) ∧
    ∀ st'', evict_least_recently_used
        ⟨moveToEnd st.models_cache key, setKey st.last_access key now,
         st.load_times⟩ = some st'' →
      key ∈ keys st''.models_cache := by
  have hkc : key ∈ keys st.models_cache := mem_keys_of_getKey_some hget
  have hkla : key ∈ keys st.last_access := hwf.cache_sub_access key hkc
  have hkla' : key ∈ keys (setKey st.last_access key now) := by
    rw [keys_setKey_of_mem _ _ _ hkla]; exact hkla
  refine ⟨by simp [get_model, hget], getKey_setKey_self _ _ _,
          getLast_moveToEnd hget, ?_⟩
  obtain ⟨p, rest, hla⟩ :
      ∃ p rest, setKey st.last_access key now = p :: rest := by
    rcases hsk : setKey st.last_access key now with _ | ⟨p, rest⟩
    · rw [hsk] at hkla'; simp at hkla'
    · exact ⟨p, rest, rfl⟩
  obtain ⟨q, hq_mem, hq_ne, hq_lt⟩ := hcold
  have hq_mem' : q ∈ setKey st.last_access key now :=
    mem_of_setKey_preserve hq_ne hq_mem
  have hmin_le : (pyMinBySnd p rest).2 ≤ q.2 := by
    rw [hla] at hq_mem'
    rcases List.mem_cons.1 hq_mem' with h1 | h2
    · rw [h1]; exact (pyMinBySnd_le p rest).1
    · exact (pyMinBySnd_le p rest).2 q h2
  have hmin_lt : (pyMinBySnd p rest).2 < now := lt_of_le_of_lt hmin_le hq_lt
  have hmin_mem : pyMinBySnd p rest ∈ setKey st.last_access key now := by
    rw [hla]
    rcases pyMinBySnd_mem p rest with h1 | h1
    · rw [h1]; exact List.mem_cons_self _ _
    · exact List.mem_cons.2 (Or.inr h1)
  have hnodup' : (keys (setKey st.last_access key now)).Nodup :=
    nodup_keys_setKey hwf.nodupA
  have hkeymem : (key, now) ∈ setKey st.last_access key now :=
    mem_of_getKey_some (getKey_setKey_self _ _ _)
  have hlru_ne : (pyMinBySnd p rest).1 ≠ key := by
    intro he
    have hpair : ((pyMinBySnd p rest).1, (pyMinBySnd p rest).2) ∈
        setKey st.last_access key now := by simpa using hmin_mem
    rw [he] at hpair
    have := val_unique_of_nodup hnodup' hpair hkeymem
    omega
  have hc_ne : moveToEnd st.models_cache key ≠ [] := by
    intro hnil
    have hmm : key ∈ keys (moveToEnd st.models_cache key) :=
      (mem_keys_moveToEnd _ _ _).2 hkc
    rw [hnil] at hmm
    simp at hmm
  intro st'' hev
  by_cases hlru_c : (pyMinBySnd p rest).1 ∈ keys (moveToEnd st.models_cache key)
  · by_cases hlru_t : (pyMinBySnd p rest).1 ∈ keys st.load_times
    · simp only [evict_least_recently_used, hla, if_neg hc_ne, if_pos hlru_c,
        if_pos hlru_t, Option.some.injEq] at hev
      rw [← hev]
      exact mem_keys_delKey_of_ne _ _ _ (fun he => hlru_ne he.symm)
        ((mem_keys_moveToEnd _ _ _).2 hkc)
    · simp only [evict_least_recently_used, hla, if_neg hc_ne, if_pos hlru_c,
        if_neg hlru_t] at hev
      exact Option.noConfusion hev
  · simp only [evict_least_recently_used, hla, if_neg hc_ne, if_neg hlru_c,
      Option.some.injEq] at hev
    rw [← hev]
    exact (mem_keys_moveToEnd _ _ _).2 hkc

/-- Witness for C6 at a concrete input: a hit on `"hot"` at time 10 while
`"cold"` still has access time 1; the subsequent eviction removes `"cold"`. -/
theorem C6_hit_promotes_to_most_recently_used_witness :
    get_model ⟨5, 4⟩ ⟨[("cold", 5), ("hot", 6)], [("cold", 1), ("hot", 2)],
        [("cold", 9), ("hot", 8)]⟩ "hot" 10 (.ok 0) 0 1 =
      some (.ok 6,
        ⟨moveToEnd [("cold", 5), ("hot", 6)] "hot",
         setKey [("cold", 1), ("hot", 2)] "hot" 10,
         [("cold", 9), ("hot", 8)]⟩) ∧
    getKey (setKey [("cold", 1), ("hot", 2)] "hot" 10) "hot" = some 10 ∧
    (moveToEnd [("cold", 5), ("hot", 6)] "hot").getLast? = some ("hot", 6) ∧
    "hot" ∈ keys ([("hot", 6)] : List (String × Nat)) := by
  have H := C6_hit_promotes_to_most_recently_used ⟨5, 4⟩
      ⟨[("cold", 5), ("hot", 6)], [("cold", 1), ("hot", 2)],
       [("cold", 9), ("hot", 8)]⟩ "hot" 6 10 (.ok 0) 0 1
      ⟨by decide, by decide, by decide, by decide, by decide, by decide⟩
      (by decide) (by decide)
  exact ⟨H.1, H.2.1, H.2.2.1,
    H.2.2.2 ⟨[("hot", 6)], [("hot", 10)], [("hot", 8)]⟩ (by decide)⟩

/-- **C2** (code bug): at the failing input — empty store, available memory
fixed at 1.5 GB (below the 2.0 GB reserved floor), capacity 5 — the eviction
loop run by `get_model` does not exit within any number of iterations, and the
enclosing `get_model` call therefore never completes: the claim says the loop
stops once the store is empty even under memory pressure, but the loop
condition (`model_manager.py:177`) lacks the store-is-empty escape and
`_evict_least_recently_used` is a no-op on an empty store. -/
theorem C2_eviction_loop_spins_on_empty_store (fuel : Nat) :
    evictLoop ⟨5, 3/2⟩ fuel ⟨[], [], []⟩ = none ∧
    get_model ⟨5, 3/2⟩ ⟨[], [], []⟩ "any-model" 0 (.ok 1) 1 fuel = none := by
  have h32 : ((3 : Rat)/2) < 2 := by norm_num
  have h1 := evictLoop_none_of_empty_cache ⟨5, 3/2⟩ h32 fuel ⟨[], [], []⟩ rfl
  have h2 := evictLoop_none_of_empty_cache ⟨5, 3/2⟩ h32 fuel
      ⟨[], [], [("any-model", 1)]⟩ rfl
  refine ⟨h1, ?_⟩
  simp [get_model, getKey, setKey, h2]

/-- **C5**: a failing backend load propagates the raised error to the caller
and leaves the manager state exactly unchanged; a key absent from the model
cache, the last-access map and the load-times map beforehand is still absent
from each afterwards. -/
theorem C5_failed_load_leaves_state_unchanged
    (cfg : Config) (st : MMState) (key : String) (now loadDur fuel : Nat)
    (e : String)
    (hc : key ∉ keys st.models_cache)
    (ha : key ∉ keys st.last_access)
    (ht : key ∉ keys st.load_times) :
    get_model cfg st key now (.error e) loadDur fuel = some (.error e, st) ∧
    key ∉ keys st.models_cache ∧ key ∉ keys st.last_access ∧
    key ∉ keys st.load_times := by
  have hget : getKey st.models_cache key = none := (getKey_eq_none_iff _ _).2 hc
  exact ⟨by simp [get_model, hget], hc, ha, ht⟩

/-- Witness for C5 at a concrete input. -/
theorem C5_failed_load_leaves_state_unchanged_witness :
    get_model ⟨5, 4⟩ ⟨[("a", 1)], [("a", 0)], [("a", 2)]⟩ "b" 7
        (.error "load failed") 3 9
      = some (.error "load failed", ⟨[("a", 1)], [("a", 0)], [("a", 2)]⟩) ∧
    "b" ∉ keys [("a", (1 : Nat))] ∧ "b" ∉ keys [("a", (0 : Nat))] ∧
    "b" ∉ keys [("a", (2 : Nat))] :=
  C5_failed_load_leaves_state_unchanged ⟨5, 4⟩
    ⟨[("a", 1)], [("a", 0)], [("a", 2)]⟩ "b" 7 3 9 "load failed"
    (by decide) (by decide) (by decide)

/-- **C7**: removing a cached model succeeds (HTTP 200) and deletes the key
from the model cache, the last-access map and the load-times map; an
immediately repeated removal of the same key reports 404 and returns the state
unchanged. -/
theorem C7_remove_model_idempotent (cfg : Config) (st : MMState) (key : String)
    (hwf : WF st) (hmem : key ∈ keys st.models_cache) :
    ∃ st₂,
      remove_model_from_cache cfg st key = some (200, st₂) ∧
      key ∉ keys st₂.models_cache ∧ key ∉ keys st₂.last_access ∧
      key ∉ keys st₂.load_times ∧
      remove_model_from_cache cfg st₂ key = some (404, st₂) := by
  have hacc : key ∈ keys st.last_access := hwf.cache_sub_access key hmem
  have htim : key ∈ keys st.load_times := hwf.cache_sub_times key hmem
  obtain ⟨t, hget⟩ := getKey_isSome_of_mem hacc
  refine ⟨⟨delKey st.models_cache key, delKey st.last_access key,
           delKey st.load_times key⟩, ?_, ?_, ?_, ?_, ?_⟩
  · simp [remove_model_from_cache, get_cache_info, hmem, hget, htim]
  · exact not_mem_keys_delKey hwf.nodupC
  · exact not_mem_keys_delKey hwf.nodupA
  · exact not_mem_keys_delKey hwf.nodupT
  · simp [remove_model_from_cache, get_cache_info,
      not_mem_keys_delKey hwf.nodupC]

/-- Witness for C7 at a concrete input. -/
theorem C7_remove_model_idempotent_witness :
    ∃ st₂,
      remove_model_from_cache ⟨5, 4⟩ ⟨[("m", 1)], [("m", 0)], [("m", 2)]⟩ "m"
        = some (200, st₂) ∧
      "m" ∉ keys st₂.models_cache ∧ "m" ∉ keys st₂.last_access ∧
      "m" ∉ keys st₂.load_times ∧
      remove_model_from_cache ⟨5, 4⟩ st₂ "m" = some (404, st₂) :=
  C7_remove_model_idempotent ⟨5, 4⟩ ⟨[("m", 1)], [("m", 0)], [("m", 2)]⟩ "m"
    ⟨by decide, by decide, by decide, by decide, by decide, by decide⟩
    (by decide)

/-- **C8** (counterexample): clearing a cache that holds exactly one entry
performs zero backend teardown calls — not one per removed entry as claimed:
the body of `clear_cache` only empties the three dicts. -/
theorem C8_counterexample_clear_performs_no_teardown :
    (clear_cache ⟨[("m", 1)], [("m", 0)], [("m", 2)]⟩).2 = [] ∧
    ¬ ((clear_cache ⟨[("m", 1)], [("m", 0)], [("m", 2)]⟩).2.count
        (BackendCall.teardown "m") = 1) := by
  constructor
  · rfl
  · simp [clear_cache]

/-- **C8** (amended): `clear_cache` removes every entry — afterwards the
cached-key set is empty, the size is 0, and all recorded last-access times and
load durations are gone — but it performs no backend-specific teardown of the
removed handles: its backend-call trace is empty. -/
theorem C8_clear_empties_cache_without_teardown (cfg : Config) (st : MMState)
    (k : String) :
    (get_cache_info cfg (clear_cache st).1).cached_models = [] ∧
    (get_cache_info cfg (clear_cache st).1).cache_size = 0 ∧
    getKey (clear_cache st).1.last_access k = none ∧
    getKey (clear_cache st).1.load_times k = none ∧
    (clear_cache st).2.count (BackendCall.teardown k) = 0 := by
  refine ⟨rfl, rfl, rfl, rfl, ?_⟩
  simp [clear_cache]

section StringLemmas

theorem isPrefixOf_iff_append {q s : List Char} :
    q.isPrefixOf s = true ↔ ∃ t, s = q ++ t := by
  induction q generalizing s with
  | nil => simp [List.isPrefixOf]
  | cons a q ih =>
    cases s with
    | nil => simp [List.isPrefixOf]
    | cons b s =>
      simp only [List.isPrefixOf, Bool.and_eq_true, beq_iff_eq]
      constructor
      · rintro ⟨rfl, h⟩
        obtain ⟨t, rfl⟩ := ih.1 h
        exact ⟨t, rfl⟩
      · rintro ⟨t, ht⟩
        injection ht with h1 h2
        exact ⟨h1.symm, ih.2 ⟨t, h2⟩⟩

theorem pyFind_some_prefixAt {q s : List Char} {i : Nat}
    (h : pyFind q s = some i) : q.isPrefixOf (s.drop i) = true := by
  induction s generalizing i with
  | nil =>
    by_cases hq : q = []
    · simp only [pyFind, if_pos hq, Option.some.injEq] at h
      subst h
      simp [hq, List.isPrefixOf]
    · simp [pyFind, hq] at h
  | cons c rest ih =>
    by_cases hp : q.isPrefixOf (c :: rest) = true
    · simp only [pyFind, if_pos hp, Option.some.injEq] at h
      subst h
      exact hp
    · simp only [pyFind, if_neg hp, Option.map_eq_some'] at h
      obtain ⟨j, hj, rfl⟩ := h
      simpa using ih hj

theorem pyFind_le_occurrence {q s : List Char} {i : Nat}
    (h : q.isPrefixOf (s.drop i) = true) : ∃ j ≤ i, pyFind q s = some j := by
  induction s generalizing i with
  | nil =>
    rw [List.drop_nil] at h
    have hq : q = [] := by
      cases q with
      | nil => rfl
      | cons a q => simp [List.isPrefixOf] at h
    exact ⟨0, Nat.zero_le i, by simp [pyFind, hq]⟩
  | cons c rest ih =>
    by_cases hp : q.isPrefixOf (c :: rest) = true
    · exact ⟨0, Nat.zero_le i, by simp [pyFind, hp]⟩
    · cases i with
      | zero =>
        rw [List.drop_zero] at h
        exact absurd h hp
      | succ i' =>
        obtain ⟨j, hji, hfind⟩ :=
          ih (show q.isPrefixOf (rest.drop i') = true from h)
        exact ⟨j + 1, Nat.succ_le_succ hji, by simp [pyFind, hp, hfind]⟩

theorem pyFind_some_substring {q s : List Char} {j : Nat}
    (h : pyFind q s = some j) : SubstringOf q s := by
  obtain ⟨t, ht⟩ := isPrefixOf_iff_append.1 (pyFind_some_prefixAt h)
  refine ⟨s.take j, t, ?_⟩
  conv_lhs => rw [← List.take_append_drop j s]
  rw [ht, List.append_assoc]

theorem pyFind_none_of_no_sub {q s : List Char} (h : ¬ SubstringOf q s) :
    pyFind q s = none := by
  rcases hf : pyFind q s with _ | j
  · rfl
  · exact absurd (pyFind_some_substring hf) h

theorem sub_trans {a b c : List Char} (h1 : SubstringOf a b)
    (h2 : SubstringOf b c) : SubstringOf a c := by
  obtain ⟨u1, v1, rfl⟩ := h1
  obtain ⟨u2, v2, rfl⟩ := h2
  exact ⟨u2 ++ u1, v1 ++ v2, by simp [List.append_assoc]⟩

theorem self_sub (t : List Char) : SubstringOf t t :=
  ⟨[], [], by simp⟩

theorem take_sub (t : List Char) (n : Nat) : SubstringOf (t.take n) t :=
  ⟨[], t.drop n, by simp⟩

theorem dropWhile_sub (p : Char → Bool) (t : List Char) :
    SubstringOf (t.dropWhile p) t :=
  ⟨t.takeWhile p, [], by simp⟩

theorem strip_sub (t : List Char) : SubstringOf (pyStrip t) t := by
  refine sub_trans ?_ (dropWhile_sub pyIsSpace t)
  show SubstringOf (((t.dropWhile pyIsSpace).reverse.dropWhile pyIsSpace).reverse)
    (t.dropWhile pyIsSpace)
  generalize t.dropWhile pyIsSpace = y
  refine ⟨[], (y.reverse.takeWhile pyIsSpace).reverse, ?_⟩
  conv_lhs => rw [← List.reverse_reverse y,
    ← List.takeWhile_append_dropWhile pyIsSpace y.reverse]
  rw [List.reverse_append]
  simp

theorem dropIncomplete_sub (t : List Char) :
    SubstringOf (dropIncomplete t) t := by
  unfold dropIncomplete
  rcases hgl : t.getLast? with _ | c
  · exact self_sub t
  · dsimp only
    by_cases hterm : c = '.' ∨ c = '!' ∨ c = '?'
    · rw [if_pos hterm]; exact self_sub t
    · rw [if_neg hterm]
      by_cases hhalf : 2 * lastComplete t > (t.length : Int)
      · rw [if_pos hhalf]; exact take_sub t _
      · rw [if_neg hhalf]; exact self_sub t

theorem truncAtStop_sub (s : List Char) : SubstringOf (truncAtStop s) s := by
  unfold truncAtStop
  split
  · exact take_sub s _
  · exact self_sub s

theorem sub_take_occ {q s : List Char} {m : Nat} (hq : q ≠ [])
    (h : SubstringOf q (s.take m)) :
    ∃ i, q.isPrefixOf (s.drop i) = true ∧ i < m := by
  obtain ⟨u, v, huv⟩ := h
  refine ⟨u.length, ?_, ?_⟩
  · have hs : s = u ++ (q ++ (v ++ s.drop m)) := by
      conv_lhs => rw [← List.take_append_drop m s]
      rw [huv]
      simp [List.append_assoc]
    rw [isPrefixOf_iff_append]
    refine ⟨v ++ s.drop m, ?_⟩
    conv_lhs => rw [hs]
    rw [List.drop_left]
  · have hlen : (s.take m).length = u.length + q.length + v.length := by
      rw [huv]; simp; omega
    have hm : (s.take m).length ≤ m := by
      rw [List.length_take]; omega
    have hq1 : 1 ≤ q.length := List.length_pos.2 hq
    omega

/-- Every configured stop sequence is nonempty. -/
theorem stop_sequences_ne_nil : ∀ q ∈ stop_sequences, q ≠ [] := by decide

theorem foldr_min_le_init (L : List Nat) (a : Nat) :
    L.foldr Nat.min a ≤ a := by
  induction L with
  | nil => exact le_refl a
  | cons x L ih => exact le_trans (Nat.min_le_right _ _) ih

theorem foldr_min_le_mem {L : List Nat} {x : Nat} (a : Nat) (h : x ∈ L) :
    L.foldr Nat.min a ≤ x := by
  induction L with
  | nil => simp at h
  | cons y L ih =>
    rcases List.mem_cons.1 h with h1 | h2
    · rw [h1]; exact Nat.min_le_left _ _
    · exact le_trans (Nat.min_le_right _ _) (ih h2)

theorem foldr_min_shuffle (L : List Nat) (a b : Nat) :
    L.foldr Nat.min (Nat.min a b) = Nat.min b (L.foldr Nat.min a) := by
  induction L with
  | nil => exact Nat.min_comm a b
  | cons x L ih =>
    show Nat.min x (L.foldr Nat.min (Nat.min a b)) = _
    rw [ih]
    exact min_left_comm x b (L.foldr Nat.min a)

theorem filterMap_none {α β : Type} {f : α → Option β} {l : List α}
    (h : ∀ q ∈ l, f q = none) : l.filterMap f = [] := by
  induction l with
  | nil => rfl
  | cons a l ih =>
    rw [List.filterMap_cons, h a (List.mem_cons_self a l)]
    exact ih (fun q hq => h q (List.mem_cons.2 (Or.inr hq)))

theorem foldl_stopFold_eq_foldr (s : List Char) (l : List (List Char)) :
    ∀ init : Nat, l.foldl (stopFold s) init =
      (l.filterMap (fun q => pyFind q s)).foldr Nat.min init := by
  induction l with
  | nil => intro init; rfl
  | cons q l ih =>
    intro init
    rcases hf : pyFind q s with _ | p
    · show l.foldl (stopFold s) (stopFold s init q) = _
      rw [show stopFold s init q = init by simp [stopFold, hf], ih init,
        List.filterMap_cons, hf]
    · show l.foldl (stopFold s) (stopFold s init q) = _
      rw [show stopFold s init q = Nat.min init p by
        simp only [stopFold, hf]
        split
        · rename_i hlt
          exact (min_eq_right (le_of_lt hlt)).symm
        · rename_i hge
          exact (min_eq_left (le_of_not_lt hge)).symm]
      rw [ih (Nat.min init p), List.filterMap_cons, hf]
      show _ = Nat.min p (List.foldr Nat.min init _)
      exact foldr_min_shuffle _ init p

/-- The source's conditional-update fold equals the spec-side minimum. -/
theorem minStopPos_eq_spec (s : List Char) :
    minStopPos s = earliestStopSpec s :=
  foldl_stopFold_eq_foldr s stop_sequences s.length

theorem minStopPos_le_found {s q : List Char} {j : Nat}
    (hq : q ∈ stop_sequences) (hj : pyFind q s = some j) :
    minStopPos s ≤ j := by
  rw [minStopPos_eq_spec]
  exact foldr_min_le_mem s.length (List.mem_filterMap.2 ⟨q, hq, hj⟩)

theorem no_stop_in_truncAtStop (s : List Char) :
    ∀ q ∈ stop_sequences, ¬ SubstringOf q (truncAtStop s) := by
  intro q hq hsub
  have hqne := stop_sequences_ne_nil q hq
  unfold truncAtStop at hsub
  by_cases hlt : minStopPos s < s.length
  · rw [if_pos hlt] at hsub
    obtain ⟨i, hpre, him⟩ := sub_take_occ hqne hsub
    obtain ⟨j, hji, hfind⟩ := pyFind_le_occurrence hpre
    have hle := minStopPos_le_found hq hfind
    omega
  · rw [if_neg hlt] at hsub
    have hsub' : SubstringOf q (s.take s.length) := by
      rw [List.take_length]; exact hsub
    obtain ⟨i, hpre, him⟩ := sub_take_occ hqne hsub'
    obtain ⟨j, hji, hfind⟩ := pyFind_le_occurrence hpre
    have hle := minStopPos_le_found hq hfind
    omega

theorem no_stop_in_clean (s : List Char) :
    ∀ q ∈ stop_sequences, ¬ SubstringOf q (clean_response s) := by
  intro q hq hsub
  exact no_stop_in_truncAtStop s q hq
    (sub_trans (sub_trans hsub (dropIncomplete_sub _)) (strip_sub _))

theorem pyRfind_ge (ch : Char) (t : List Char) : -1 ≤ pyRfind ch t := by
  induction t with
  | nil => exact le_refl _
  | cons c rest ih =>
    simp only [pyRfind]
    split
    · omega
    · split <;> omega

theorem pyRfind_cons_pos {ch c : Char} {rest : List Char}
    (h : pyRfind ch rest ≠ -1) :
    pyRfind ch (c :: rest) = pyRfind ch rest + 1 := by
  simp only [pyRfind, if_pos h]

theorem pyRfind_cons_of_neg {ch c : Char} {rest : List Char}
    (h : pyRfind ch rest = -1) :
    pyRfind ch (c :: rest) = if c = ch then 0 else -1 := by
  simp [pyRfind, h]

/-- The source's `max` of three single-character `rfind`s equals the spec-side
index of the last sentence-terminal character (`-1` standing for `none`). -/
theorem lastComplete_eq (t : List Char) :
    lastComplete t = match lastTerminalSpec t with
      | some i => (i : Int)
      | none => -1 := by
  induction t with
  | nil => rfl
  | cons c rest ih =>
    have hg1 := pyRfind_ge '.' rest
    have hg2 := pyRfind_ge '!' rest
    have hg3 := pyRfind_ge '?' rest
    rcases hspec : lastTerminalSpec rest with _ | j
    · rw [hspec] at ih
      have hmax : max (pyRfind '.' rest)
          (max (pyRfind '!' rest) (pyRfind '?' rest)) = -1 := ih
      have h1 : pyRfind '.' rest = -1 := by
        have := le_max_left (pyRfind '.' rest)
          (max (pyRfind '!' rest) (pyRfind '?' rest))
        omega
      have h2 : pyRfind '!' rest = -1 := by
        have ha := le_max_left (pyRfind '!' rest) (pyRfind '?' rest)
        have hb := le_max_right (pyRfind '.' rest)
          (max (pyRfind '!' rest) (pyRfind '?' rest))
        omega
      have h3 : pyRfind '?' rest = -1 := by
        have ha := le_max_right (pyRfind '!' rest) (pyRfind '?' rest)
        have hb := le_max_right (pyRfind '.' rest)
          (max (pyRfind '!' rest) (pyRfind '?' rest))
        omega
      show max (pyRfind '.' (c :: rest))
          (max (pyRfind '!' (c :: rest)) (pyRfind '?' (c :: rest))) = _
      rw [pyRfind_cons_of_neg h1, pyRfind_cons_of_neg h2,
        pyRfind_cons_of_neg h3]
      simp only [lastTerminalSpec, hspec]
      by_cases htc : terminalChar c = true
      · rcases (by simpa [terminalChar] using htc :
            (c = '.' ∨ c = '!') ∨ c = '?') with (rfl | rfl) | rfl <;>
          simp [htc]
      · have hfc : terminalChar c = false := by
          rwa [Bool.not_eq_true] at htc
        obtain ⟨⟨hd1, hd2⟩, hd3⟩ :
            (¬ c = '.' ∧ ¬ c = '!') ∧ ¬ c = '?' := by
          simpa [terminalChar] using htc
        rw [if_neg hd1, if_neg hd2, if_neg hd3]
        simp [hfc]
    · rw [hspec] at ih
      have hmax : max (pyRfind '.' rest)
          (max (pyRfind '!' rest) (pyRfind '?' rest)) = (j : Int) := ih
      have hj0 : (0 : Int) ≤ (j : Int) := Int.natCast_nonneg j
      have hb1 : pyRfind '.' rest ≤ (j : Int) := by
        have := le_max_left (pyRfind '.' rest)
          (max (pyRfind '!' rest) (pyRfind '?' rest))
        omega
      have hb2 : pyRfind '!' rest ≤ (j : Int) := by
        have ha := le_max_left (pyRfind '!' rest) (pyRfind '?' rest)
        have hb := le_max_right (pyRfind '.' rest)
          (max (pyRfind '!' rest) (pyRfind '?' rest))
        omega
      have hb3 : pyRfind '?' rest ≤ (j : Int) := by
        have ha := le_max_right (pyRfind '!' rest) (pyRfind '?' rest)
        have hb := le_max_right (pyRfind '.' rest)
          (max (pyRfind '!' rest) (pyRfind '?' rest))
        omega
      have hc1 : pyRfind '.' (c :: rest) ≤ (j : Int) + 1 := by
        by_cases h : pyRfind '.' rest = -1
        · rw [pyRfind_cons_of_neg h]
          split <;> omega
        · rw [pyRfind_cons_pos h]; omega
      have hc2 : pyRfind '!' (c :: rest) ≤ (j : Int) + 1 := by
        by_cases h : pyRfind '!' rest = -1
        · rw [pyRfind_cons_of_neg h]
          split <;> omega
        · rw [pyRfind_cons_pos h]; omega
      have hc3 : pyRfind '?' (c :: rest) ≤ (j : Int) + 1 := by
        by_cases h : pyRfind '?' rest = -1
        · rw [pyRfind_cons_of_neg h]
          split <;> omega
        · rw [pyRfind_cons_pos h]; omega
      have hwitness : pyRfind '.' (c :: rest) = (j : Int) + 1 ∨
          pyRfind '!' (c :: rest) = (j : Int) + 1 ∨
          pyRfind '?' (c :: rest) = (j : Int) + 1 := by
        rcases max_choice (pyRfind '.' rest)
            (max (pyRfind '!' rest) (pyRfind '?' rest)) with hA | hA
        · rw [hA] at hmax
          exact Or.inl (by rw [pyRfind_cons_pos (by omega), hmax])
        · rw [hA] at hmax
          rcases max_choice (pyRfind '!' rest) (pyRfind '?' rest) with hB | hB
          · rw [hB] at hmax
            exact Or.inr (Or.inl (by rw [pyRfind_cons_pos (by omega), hmax]))
          · rw [hB] at hmax
            exact Or.inr (Or.inr (by rw [pyRfind_cons_pos (by omega), hmax]))
      show max (pyRfind '.' (c :: rest))
          (max (pyRfind '!' (c :: rest)) (pyRfind '?' (c :: rest))) = _
      simp only [lastTerminalSpec, hspec]
      have hcast : ((j + 1 : Nat) : Int) = (j : Int) + 1 := by push_cast; ring
      rw [hcast]
      apply le_antisymm
      · exact max_le hc1 (max_le hc2 hc3)
      · rcases hwitness with hw | hw | hw
        · rw [← hw]; exact le_max_left _ _
        · rw [← hw]
          exact le_trans (le_max_left _ _) (le_max_right _ _)
        · rw [← hw]
          exact le_trans (le_max_right _ _) (le_max_right _ _)

theorem lastTerminalSpec_lt {t : List Char} {i : Nat}
    (h : lastTerminalSpec t = some i) :
    i < t.length ∧ terminalChar (t.getD i ' ') = true := by
  induction t generalizing i with
  | nil => simp [lastTerminalSpec] at h
  | cons c rest ih =>
    rcases hr : lastTerminalSpec rest with _ | j
    · simp only [lastTerminalSpec, hr] at h
      by_cases htc : terminalChar c = true
      · rw [if_pos htc] at h
        injection h with h
        subst h
        exact ⟨Nat.succ_pos _, htc⟩
      · rw [if_neg htc] at h
        exact Option.noConfusion h
    · simp only [lastTerminalSpec, hr, Option.some.injEq] at h
      subst h
      obtain ⟨hj, hc⟩ := ih hr
      exact ⟨Nat.succ_lt_succ hj, hc⟩

theorem getLast?_take_succ {t : List Char} {i : Nat} (hi : i < t.length) :
    (t.take (i + 1)).getLast? = some (t.getD i ' ') := by
  induction t generalizing i with
  | nil => simp at hi
  | cons c rest ih =>
    cases i with
    | zero => rfl
    | succ i' =>
      have hi' : i' < rest.length := by simpa using hi
      have hne : rest.take (i' + 1) ≠ [] := by
        cases rest with
        | nil => simp at hi'
        | cons d rest' => simp
      calc ((c :: rest).take (i' + 1 + 1)).getLast?
          = ([c] ++ rest.take (i' + 1)).getLast? := rfl
        _ = (rest.take (i' + 1)).getLast? :=
            List.getLast?_append_of_ne_nil [c] hne
        _ = some (rest.getD i' ' ') := ih hi'

/-- The incomplete-sentence pass of the source equals its spec-side
counterpart. -/
theorem dropIncomplete_eq_spec (t : List Char) :
    dropIncomplete t = dropIncompleteSpec t := by
  unfold dropIncomplete dropIncompleteSpec
  rcases hgl : t.getLast? with _ | c
  · rfl
  · dsimp only
    by_cases hterm : c = '.' ∨ c = '!' ∨ c = '?'
    · rw [if_pos hterm, if_pos hterm]
    · rw [if_neg hterm, if_neg hterm]
      rcases hspec : lastTerminalSpec t with _ | i
      · have hlcn : lastComplete t = -1 := by
          rw [lastComplete_eq t, hspec]
        rw [hlcn, if_neg (by
          have h0 : (0 : Int) ≤ (t.length : Int) := Int.natCast_nonneg _
          omega)]
      · have hlci : lastComplete t = (i : Int) := by
          rw [lastComplete_eq t, hspec]
        dsimp only
        rw [hlci]
        by_cases hhalf : 2 * i > t.length
        · rw [if_pos (by exact_mod_cast hhalf), if_pos hhalf]
          have htn : ((i : Int) + 1).toNat = i + 1 := by omega
          rw [htn]
        · rw [if_neg (fun hcon => hhalf (by exact_mod_cast hcon)),
            if_neg hhalf]

/-- The stop-marker truncation of the source equals its spec-side
counterpart. -/
theorem truncAtStop_eq_spec (s : List Char) : truncAtStop s = truncSpec s := by
  unfold truncAtStop truncSpec
  rw [minStopPos_eq_spec]
  by_cases h : earliestStopSpec s < s.length
  · rw [if_pos h]
  · rw [if_neg h]
    have hle : earliestStopSpec s ≤ s.length := foldr_min_le_init _ _
    have heq : earliestStopSpec s = s.length := le_antisymm hle (le_of_not_lt h)
    rw [heq, List.take_length]

end StringLemmas

section IdempotenceLemmas

theorem truncAtStop_eq_self {t : List Char}
    (h : ∀ q ∈ stop_sequences, ¬ SubstringOf q t) : truncAtStop t = t := by
  have hall : ∀ q ∈ stop_sequences, pyFind q t = none :=
    fun q hq => pyFind_none_of_no_sub (h q hq)
  have hfm : stop_sequences.filterMap (fun q => pyFind q t) = [] :=
    filterMap_none hall
  have hmin : minStopPos t = t.length := by
    rw [minStopPos_eq_spec]
    unfold earliestStopSpec
    rw [hfm]
    rfl
  unfold truncAtStop
  rw [hmin]
  simp

theorem head?_dropWhile_not {p : Char → Bool} {l : List Char} {a : Char}
    (h : (l.dropWhile p).head? = some a) : p a = false := by
  induction l with
  | nil => simp [List.dropWhile] at h
  | cons b l ih =>
    by_cases hb : p b = true
    · rw [List.dropWhile_cons, if_pos hb] at h
      exact ih h
    · rw [List.dropWhile_cons, if_neg hb] at h
      injection h with h
      rw [← h]
      exact Bool.eq_false_iff.2 hb

theorem strip_head_not_space {t : List Char} {c : Char}
    (h : (pyStrip t).head? = some c) : pyIsSpace c = false := by
  unfold pyStrip at h
  rw [List.head?_reverse] at h
  have hBne : (t.dropWhile pyIsSpace).reverse.dropWhile pyIsSpace ≠ [] := by
    intro hnil
    rw [hnil] at h
    exact Option.noConfusion h
  have hA : ((t.dropWhile pyIsSpace).reverse).getLast? = some c := by
    conv_lhs => rw [← List.takeWhile_append_dropWhile pyIsSpace
      (t.dropWhile pyIsSpace).reverse]
    rw [List.getLast?_append_of_ne_nil _ hBne]
    exact h
  rw [List.getLast?_reverse] at hA
  exact head?_dropWhile_not hA

theorem strip_last_not_space {t : List Char} {c : Char}
    (h : (pyStrip t).getLast? = some c) : pyIsSpace c = false := by
  unfold pyStrip at h
  rw [List.getLast?_reverse] at h
  exact head?_dropWhile_not h

theorem strip_eq_self {t : List Char}
    (h1 : ∀ c, t.head? = some c → pyIsSpace c = false)
    (h2 : ∀ c, t.getLast? = some c → pyIsSpace c = false) :
    pyStrip t = t := by
  have hdw : ∀ (l : List Char),
      (∀ c, l.head? = some c → pyIsSpace c = false) →
      l.dropWhile pyIsSpace = l := by
    intro l hl
    cases l with
    | nil => rfl
    | cons a l' =>
      rw [List.dropWhile_cons, if_neg]
      rw [hl a rfl]
      simp
  have hrev : ∀ c, t.reverse.head? = some c → pyIsSpace c = false := by
    intro c hc
    rw [List.head?_reverse] at hc
    exact h2 c hc
  unfold pyStrip
  rw [hdw t h1, hdw t.reverse hrev, List.reverse_reverse]

theorem head?_take_of_pos {t : List Char} {n : Nat} (hn : 0 < n) :
    (t.take n).head? = t.head? := by
  cases t with
  | nil => simp
  | cons a t' =>
    cases n with
    | zero => omega
    | succ m => rfl

theorem terminal_not_space {c : Char} (h : terminalChar c = true) :
    pyIsSpace c = false := by
  rcases (by simpa [terminalChar] using h : (c = '.' ∨ c = '!') ∨ c = '?')
    with (rfl | rfl) | rfl <;> rfl

/-- The incomplete-sentence pass either returns its input unchanged or cuts
just after the last sentence-terminal character, which lies in the latter
half. -/
theorem dropIncomplete_cases (t : List Char) :
    dropIncomplete t = t ∨
    (∃ i, lastTerminalSpec t = some i ∧ 2 * i > t.length ∧
      dropIncomplete t = t.take (i + 1)) := by
  unfold dropIncomplete
  rcases hgl : t.getLast? with _ | d
  · exact Or.inl rfl
  · dsimp only
    by_cases hterm : d = '.' ∨ d = '!' ∨ d = '?'
    · rw [if_pos hterm]
      exact Or.inl rfl
    · rw [if_neg hterm]
      by_cases hhalf : 2 * lastComplete t > (t.length : Int)
      · rw [if_pos hhalf]
        rcases hspec : lastTerminalSpec t with _ | i
        · have hlcn : lastComplete t = -1 := by
            rw [lastComplete_eq t, hspec]
          rw [hlcn] at hhalf
          have h0 : (0 : Int) ≤ (t.length : Int) := Int.natCast_nonneg _
          omega
        · have hlci : lastComplete t = (i : Int) := by
            rw [lastComplete_eq t, hspec]
          have htn : (lastComplete t + 1).toNat = i + 1 := by
            rw [hlci]; omega
          refine Or.inr ⟨i, rfl, ?_, by rw [htn]⟩
          rw [hlci] at hhalf
          exact_mod_cast hhalf
      · rw [if_neg hhalf]
        exact Or.inl rfl

/-- The incomplete-sentence pass preserves the head of the text. -/
theorem dropIncomplete_head {t : List Char} {c : Char}
    (h : (dropIncomplete t).head? = some c) : t.head? = some c := by
  rcases dropIncomplete_cases t with hcase | ⟨i, hspec, hhalf, hcase⟩
  · rwa [hcase] at h
  · rw [hcase] at h
    rwa [head?_take_of_pos (by omega)] at h

/-- The incomplete-sentence pass either keeps the last character or cuts at a
sentence-terminal character. -/
theorem dropIncomplete_last {t : List Char} {c : Char}
    (h : (dropIncomplete t).getLast? = some c) :
    t.getLast? = some c ∨ terminalChar c = true := by
  rcases dropIncomplete_cases t with hcase | ⟨i, hspec, hhalf, hcase⟩
  · rw [hcase] at h
    exact Or.inl h
  · rw [hcase] at h
    obtain ⟨hilt, hichar⟩ := lastTerminalSpec_lt hspec
    rw [getLast?_take_succ hilt] at h
    injection h with h
    exact Or.inr (h ▸ hichar)

/-- When the incomplete-sentence pass changes the text, the result ends in a
sentence-terminal character. -/
theorem dropIncomplete_result_terminal {t : List Char}
    (h : dropIncomplete t ≠ t) :
    ∃ c, (dropIncomplete t).getLast? = some c ∧
      (c = '.' ∨ c = '!' ∨ c = '?') := by
  rcases dropIncomplete_cases t with hcase | ⟨i, hspec, hhalf, hcase⟩
  · exact absurd hcase h
  · obtain ⟨hilt, hichar⟩ := lastTerminalSpec_lt hspec
    refine ⟨t.getD i ' ', ?_, ?_⟩
    · rw [hcase, getLast?_take_succ hilt]
    · rcases (by simpa [terminalChar] using hichar :
          (t.getD i ' ' = '.' ∨ t.getD i ' ' = '!') ∨
            t.getD i ' ' = '?') with (he | he) | he
      · exact Or.inl he
      · exact Or.inr (Or.inl he)
      · exact Or.inr (Or.inr he)

theorem dropIncomplete_of_terminal_last {t : List Char} {c : Char}
    (hl : t.getLast? = some c) (hc : c = '.' ∨ c = '!' ∨ c = '?') :
    dropIncomplete t = t := by
  unfold dropIncomplete
  rw [hl]
  dsimp only
  rw [if_pos hc]

theorem dropIncomplete_idem (t : List Char) :
    dropIncomplete (dropIncomplete t) = dropIncomplete t := by
  by_cases hid : dropIncomplete t = t
  · rw [hid]
    exact hid
  · obtain ⟨c, hlast, hc⟩ := dropIncomplete_result_terminal hid
    exact dropIncomplete_of_terminal_last hlast hc

theorem clean_head_not_space {s : List Char} {c : Char}
    (h : (clean_response s).head? = some c) : pyIsSpace c = false :=
  strip_head_not_space (dropIncomplete_head h)

theorem clean_last_not_space {s : List Char} {c : Char}
    (h : (clean_response s).getLast? = some c) : pyIsSpace c = false := by
  rcases dropIncomplete_last h with h1 | h1
  · exact strip_last_not_space h1
  · exact terminal_not_space h1

end IdempotenceLemmas

/-- **C9**: every output of the post-processing pass is a contiguous substring
of its input (no characters are added), and it contains no occurrence of any
of the nine configured stop sequences. -/
theorem C9_clean_response_substring_and_stop_free (s : List Char) :
    SubstringOf (clean_response s) s ∧
    ∀ q ∈ stop_sequences, ¬ SubstringOf q (clean_response s) := by
  constructor
  · exact sub_trans (sub_trans (dropIncomplete_sub _) (strip_sub _))
      (truncAtStop_sub s)
  · exact no_stop_in_clean s

/-- **C4**: the post-processing pass truncates at the earliest occurrence of
any configured stop marker, strips surrounding whitespace, and back-truncates
to the last sentence-terminal character only when it lies in the latter half:
`_clean_response` coincides with the pass assembled from the claim's words on
every input, and on the two concrete examples it yields `"Hello there."` and
the unchanged `"This is incomplete"`. -/
theorem C4_clean_response_matches_described_pass :
    (∀ s : List Char, clean_response s = clean_response_spec s) ∧
    clean_response "Hello there.\nUser: next question".data
      = "Hello there.".data ∧
    clean_response "This is incomplete".data = "This is incomplete".data := by
  refine ⟨?_, by decide, by decide⟩
  intro s
  unfold clean_response clean_response_spec
  rw [truncAtStop_eq_spec, dropIncomplete_eq_spec]

/-- **C10**: the post-processing pass is idempotent — applying
`_clean_response` twice yields the same text as applying it once.  (The first
pass leaves no stop marker, no surrounding whitespace, and a final text on
which the incomplete-sentence rule is a fixed point.) -/
theorem C10_clean_response_idempotent (s : List Char) :
    clean_response (clean_response s) = clean_response s := by
  have htr : truncAtStop (clean_response s) = clean_response s :=
    truncAtStop_eq_self (no_stop_in_clean s)
  have hst : pyStrip (clean_response s) = clean_response s :=
    strip_eq_self (fun c hc => clean_head_not_space hc)
      (fun c hc => clean_last_not_space hc)
  show dropIncomplete (pyStrip (truncAtStop (clean_response s)))
      = clean_response s
  rw [htr, hst]
  show dropIncomplete (dropIncomplete (pyStrip (truncAtStop s)))
      = clean_response s
  rw [dropIncomplete_idem]
  rfl

theorem stepA_inv {c : CState} (h : CInv c) : CInv (stepA c) := by
  obtain ⟨hA0, hAi, hA1, hB0, hBi, hB1, hcl, hfA, hfB⟩ := h
  cases hpa : c.pA with
  | toCheck =>
    rcases hc : c.cache with _ | hdl
    · have hstep : stepA c = { c with pA := CPhase.toLoad } := by
        unfold stepA
        rw [hpa, hc]
      rw [hstep]
      exact ⟨fun _ => hA0 (Or.inl hpa), by intro hp; simp at hp, hA1,
        hB0, hBi, hB1, hcl, by intro hp; simp at hp, hfB⟩
    · have hstep : stepA c = { c with pA := CPhase.finished, resA := some hdl } := by
        unfold stepA
        rw [hpa, hc]
      rw [hstep]
      refine ⟨by intro hp; rcases hp with h | h <;> simp at h,
        by intro hp; simp at hp, hA1, hB0, hBi, hB1, hcl, ?_, hfB⟩
      intro _
      exact ⟨rfl, by rw [hc]; rfl⟩
  | toLoad =>
    have hA0' : c.loadsA = 0 := hA0 (Or.inr hpa)
    have hstep : stepA c = { c with loadsA := c.loadsA + 1, pA := CPhase.toInsert } := by
      unfold stepA
      rw [hpa]
    rw [hstep]
    refine ⟨by intro hp; rcases hp with h | h <;> simp at h,
      fun _ => by show c.loadsA + 1 = 1; omega,
      by show c.loadsA + 1 ≤ 1; omega, hB0, hBi, hB1, ?_,
      by intro hp; simp at hp, ?_⟩
    · intro _
      show 1 ≤ c.loadsA + 1 + c.loadsB
      omega
    · intro hp
      exact ⟨(hfB hp).1, (hfB hp).2⟩
  | toInsert =>
    have hAi' : c.loadsA = 1 := hAi hpa
    have hstep : stepA c = { c with cache := some handleA, pA := CPhase.finished, resA := some handleA } := by
      unfold stepA
      rw [hpa]
    rw [hstep]
    refine ⟨by intro hp; rcases hp with h | h <;> simp at h,
      by intro hp; simp at hp, hA1, hB0, hBi, hB1,
      fun _ => by show 1 ≤ c.loadsA + c.loadsB; omega,
      fun _ => ⟨rfl, rfl⟩, ?_⟩
    intro hp
    exact ⟨(hfB hp).1, rfl⟩
  | finished =>
    have hstep : stepA c = c := by
      unfold stepA
      rw [hpa]
    rw [hstep]
    exact ⟨hA0, hAi, hA1, hB0, hBi, hB1, hcl, hfA, hfB⟩

theorem stepB_inv {c : CState} (h : CInv c) : CInv (stepB c) := by
  obtain ⟨hA0, hAi, hA1, hB0, hBi, hB1, hcl, hfA, hfB⟩ := h
  cases hpb : c.pB with
  | toCheck =>
    rcases hc : c.cache with _ | hdl
    · have hstep : stepB c = { c with pB := CPhase.toLoad } := by
        unfold stepB
        rw [hpb, hc]
      rw [hstep]
      exact ⟨hA0, hAi, hA1, fun _ => hB0 (Or.inl hpb),
        by intro hp; simp at hp, hB1, hcl, hfA, by intro hp; simp at hp⟩
    · have hstep : stepB c = { c with pB := CPhase.finished, resB := some hdl } := by
        unfold stepB
        rw [hpb, hc]
      rw [hstep]
      refine ⟨hA0, hAi, hA1,
        by intro hp; rcases hp with h | h <;> simp at h,
        by intro hp; simp at hp, hB1, hcl, hfA, ?_⟩
      intro _
      exact ⟨rfl, by rw [hc]; rfl⟩
  | toLoad =>
    have hB0' : c.loadsB = 0 := hB0 (Or.inr hpb)
    have hstep : stepB c = { c with loadsB := c.loadsB + 1, pB := CPhase.toInsert } := by
      unfold stepB
      rw [hpb]
    rw [hstep]
    refine ⟨hA0, hAi, hA1,
      by intro hp; rcases hp with h | h <;> simp at h,
      fun _ => by show c.loadsB + 1 = 1; omega,
      by show c.loadsB + 1 ≤ 1; omega, ?_, ?_, by intro hp; simp at hp⟩
    · intro _
      show 1 ≤ c.loadsA + (c.loadsB + 1)
      omega
    · intro hp
      exact ⟨(hfA hp).1, (hfA hp).2⟩
  | toInsert =>
    have hBi' : c.loadsB = 1 := hBi hpb
    have hstep : stepB c = { c with cache := some handleB, pB := CPhase.finished, resB := some handleB } := by
      unfold stepB
      rw [hpb]
    rw [hstep]
    refine ⟨hA0, hAi, hA1,
      by intro hp; rcases hp with h | h <;> simp at h,
      by intro hp; simp at hp, hB1,
      fun _ => by show 1 ≤ c.loadsA + c.loadsB; omega, ?_,
      fun _ => ⟨rfl, rfl⟩⟩
    intro hp
    exact ⟨(hfA hp).1, rfl⟩
  | finished =>
    have hstep : stepB c = c := by
      unfold stepB
      rw [hpb]
    rw [hstep]
    exact ⟨hA0, hAi, hA1, hB0, hBi, hB1, hcl, hfA, hfB⟩

theorem runSched_inv (l : List Bool) : CInv (runSched l) := by
  have hgen : ∀ (l' : List Bool) (c : CState), CInv c →
      CInv (l'.foldl (fun c b => if b then stepA c else stepB c) c) := by
    intro l'
    induction l' with
    | nil => intro c hc; exact hc
    | cons b l' ih =>
      intro c hc
      cases b
      · exact ih _ (stepB_inv hc)
      · exact ih _ (stepA_inv hc)
  exact hgen l initC
    (by refine ⟨?_, ?_, ?_, ?_, ?_, ?_, ?_, ?_, ?_⟩ <;> simp [initC])

/-- **C1** (counterexample): under the schedule A-check, B-check, A-load,
B-load, A-insert, B-insert — both callers pass the cache check before either
load completes, exactly what line 155 of `get_model` permits — the backend
`load` runs twice for the same key, not exactly once, and the two callers
finish with different handles, not the same one. -/
theorem C1_counterexample_concurrent_double_load :
    (runSched [true, false, true, false, true, false]).loadsA +
      (runSched [true, false, true, false, true, false]).loadsB = 2 ∧
    ¬ ((runSched [true, false, true, false, true, false]).loadsA +
      (runSched [true, false, true, false, true, false]).loadsB = 1) ∧
    (runSched [true, false, true, false, true, false]).resA = some handleA ∧
    (runSched [true, false, true, false, true, false]).resB = some handleB ∧
    handleA ≠ handleB := by
  decide

/-- **C1** (amended): for two concurrent `get_model` callers on the same
not-yet-cached key, the backend load is invoked at least once and at most once
per caller — so between one and two times, not exactly once — under every
interleaving in which both callers complete; every completed caller receives a
handle (though not necessarily the same one) and the key ends up cached. -/
theorem C1_concurrent_load_once_per_caller (l : List Bool)
    (hA : (runSched l).pA = CPhase.finished)
    (hB : (runSched l).pB = CPhase.finished) :
    1 ≤ (runSched l).loadsA + (runSched l).loadsB ∧
    (runSched l).loadsA + (runSched l).loadsB ≤ 2 ∧
    (runSched l).resA.isSome = true ∧
    (runSched l).resB.isSome = true ∧
    (runSched l).cache.isSome = true := by
  obtain ⟨hA0, hAi, hA1, hB0, hBi, hB1, hcl, hfA, hfB⟩ := runSched_inv l
  obtain ⟨hra, hca⟩ := hfA hA
  obtain ⟨hrb, hcb⟩ := hfB hB
  exact ⟨hcl hca, by omega, hra, hrb, hca⟩

/-- Witness for the amended C1 at a concrete schedule: A runs to completion,
then B hits the cache; one load in total, both callers served. -/
theorem C1_concurrent_load_once_per_caller_witness :
    1 ≤ (runSched [true, true, true, false]).loadsA +
      (runSched [true, true, true, false]).loadsB ∧
    (runSched [true, true, true, false]).loadsA +
      (runSched [true, true, true, false]).loadsB ≤ 2 ∧
    (runSched [true, true, true, false]).resA.isSome = true ∧
    (runSched [true, true, true, false]).resB.isSome = true ∧
    (runSched [true, true, true, false]).cache.isSome = true :=
  C1_concurrent_load_once_per_caller [true, true, true, false]
    (by decide) (by decide)

end MacLLM
